import Mathlib

/-!
Verification development for the penguin development HTTP server
(library crate, `src/lib`). The Rust sources are shallowly embedded:
strings and byte buffers are modelled as `List Char`, filesystem paths as
`List String` (one entry per path component), fallible or panicking code
as `Option`/`Except`/an explicit `panicked` outcome, and the per-server
atomic polling flag as an explicit transition system. The crate version
(`env!("CARGO_PKG_VERSION")`, a compile-time constant) is threaded through
as an explicit `version : String` parameter.
-/

set_option autoImplicit false

namespace Penguin

/-- A single quote character (U+0027), used in CSP source expressions. -/
def sq : Char := Char.ofNat 39

/-- The semicolon character. -/
def sc : Char := Char.ofNat 59

/-- An HTTP response: status code, header list, body.
Streaming bodies are modelled by their textual content only where the
claims need it; otherwise the body is the empty string. -/
structure Response where
  status : Nat
  headers : List (String × String)
  body : String
deriving DecidableEq

/-- Result of running a request handler: either a response, or a Rust
panic (`panic!` / `todo!` / `expect`), which the server catches at the
request boundary. -/
inductive Outcome where
  | ok (r : Response)
  | panicked (msg : String)
deriving DecidableEq

/-- True when the outcome is a response with a 2xx status code. -/
def Outcome.is2xx : Outcome → Bool
  | .ok r => 200 ≤ r.status && r.status < 300
  | .panicked _ => false

/-- `SERVER_HEADER` from `serve/mod.rs`:
`concat!("Penguin v", env!("CARGO_PKG_VERSION"))`. -/
def SERVER_HEADER (version : String) : String := "Penguin v" ++ version

/-- Does the response carry any `Server` header at all? -/
def hasAnyServerHeader (r : Response) : Bool :=
  r.headers.any (fun p => p.1 == "Server")

/-- Does the response carry the `Server: Penguin v<version>` header? -/
def hasServerHeader (version : String) (r : Response) : Bool :=
  r.headers.any (fun p => p == ("Server", SERVER_HEADER version))

/- ### Config (`config.rs`) -/

/-- A filesystem path, one list entry per component. -/
abbrev FsPath := List String

/-- `Mount` from `config.rs`: a mapping from URI path to filesystem path.
The URI path is a string, modelled as `List Char`. -/
structure Mount where
  uri_path : List Char
  fs_path : FsPath
deriving DecidableEq

/-- `ProxyTarget` from `config.rs`: scheme plus authority. -/
structure ProxyTarget where
  scheme : String
  authority : String
deriving DecidableEq

/-- `Config` from `config.rs`. The bind address is abstracted to a
string; the crate version is not part of the Rust struct and is passed
separately where needed. -/
structure Config where
  bind_addr : String
  proxy : Option ProxyTarget
  mounts : List Mount
  control_path : List Char
deriving DecidableEq

/-- `ConfigError` from `config.rs`. -/
inductive ConfigError where
  | DuplicateUriPath (p : List Char)
  | ProxyAndRootMount
  | NoProxyOrMount
deriving DecidableEq

/-- `Builder` from `config.rs`: a newtype wrapper around `Config`. -/
structure Builder where
  toConfig : Config
deriving DecidableEq

/-- `normalize_path` from `config.rs`:
pop the last character if the length exceeds 1 and it is a `/`, then
prepend a `/` if the string does not start with one. -/
def normalize_path (path : List Char) : List Char :=
  let path := if path.length > 1 && path.getLast? == some '/' then path.dropLast else path
  if !(path.head? == some '/') then '/' :: path else path

/-- `Builder::proxy` from `config.rs`. The Rust method panics when a
proxy target was already set; the panic is modelled as `Except.error`
carrying the panic message shape. -/
def Builder.proxy (b : Builder) (target : ProxyTarget) : Except String Builder :=
  match b.toConfig.proxy with
  | some _ => .error "Builder::proxy called a second time"
  | none => .ok ⟨{ b.toConfig with proxy := some target }⟩

/-- `Builder::add_mount` from `config.rs`: normalize the URI path,
reject duplicates, otherwise push the new mount. -/
def Builder.add_mount (b : Builder) (uri_path : List Char) (fs_path : FsPath) :
    Except ConfigError Builder :=
  let uri_path := normalize_path uri_path
  if b.toConfig.mounts.any (fun other => other.uri_path == uri_path) then
    .error (.DuplicateUriPath uri_path)
  else
    .ok ⟨{ b.toConfig with mounts := b.toConfig.mounts ++ [⟨uri_path, fs_path⟩] }⟩

/-- `Builder::set_control_path` from `config.rs`. -/
def Builder.set_control_path (b : Builder) (path : List Char) : Builder :=
  ⟨{ b.toConfig with control_path := normalize_path path }⟩

/- ### Shared response constructors (`serve/mod.rs`, `serve/proxy.rs`) -/

/-- `bad_request` from `serve/mod.rs`: 400 with the given body and the
`Server` header. -/
def bad_request (version : String) (msg : String) : Response :=
  { status := 400, headers := [("Server", SERVER_HEADER version)], body := msg }

/-- `not_found` from `serve/mod.rs`: 404 with body `"Not found\n"` and
the `Server` header. -/
def not_found (version : String) : Response :=
  { status := 404, headers := [("Server", SERVER_HEADER version)], body := "Not found\n" }

/-- `internal_server_error` from `handle_internal_errors` in
`serve/mod.rs`: 500 with a diagnostic body and the `Server` header. -/
def internal_server_error (version : String) (msg : String) : Response :=
  { status := 500
    headers := [("Server", SERVER_HEADER version)]
    body := "Internal server error: this is a bug in Penguin!\n\n" ++ msg ++ "\n" }

/-- `gateway_error` from `serve/proxy.rs`: 504 on timeout, 502
otherwise, with the `Server` and `Content-Type` headers. The rendered
HTML body is taken as a parameter (the template file is an asset). -/
def gateway_error (version : String) (isTimeout : Bool) (html : String) : Response :=
  { status := if isTimeout then 504 else 502
    headers := [("Server", SERVER_HEADER version), ("Content-Type", "text/html")]
    body := html }

/-- The `Response::new(Body::empty())` replies of `handle_control` in
`serve/mod.rs` (to `POST /reload` and `POST /message`): a plain 200 with
no headers at all. -/
def control_ok_response : Response :=
  { status := 200, headers := [], body := "" }

/- ### WebSocket session (`ws.rs`) -/

/-- `Action` from `lib.rs`: the events broadcast to all sessions. -/
inductive Action where
  | Reload
  | Message (msg : List Char)
deriving DecidableEq

/-- Result of `Receiver::recv` on the broadcast channel, as matched in
`handle_connection` in `ws.rs`. -/
inductive RecvOutcome where
  | Closed
  | Lagged (skipped : Nat)
  | Recv (a : Action)
deriving DecidableEq

/-- Loop control flow of the `loop` in `handle_connection`. -/
inductive LoopCtl where
  | brk
  | cont
deriving DecidableEq

/-- The text frame sent for an action in `handle_connection`:
`"reload"` for `Reload` and `"message\n" ++ msg` for `Message(msg)`. -/
def ws_frame_text : Action → List Char
  | .Reload => "reload".toList
  | .Message msg => "message\n".toList ++ msg

/-- The `action = actions.recv()` arm of the `select!` in
`handle_connection` (`ws.rs`): `Closed` breaks the loop, `Lagged` logs
and continues, an action is sent as a text frame. A failed
`websocket.send` is only logged (`log::warn!`); control then falls to
the end of the loop body, so the session continues regardless of
`send_ok`. The second component is the frame the session attempts to
send, if any. -/
def action_arm (r : RecvOutcome) (send_ok : Bool) : LoopCtl × Option (List Char) :=
  match r with
  | .Closed => (.brk, none)
  | .Lagged _ => (.cont, none)
  | .Recv a =>
    -- the send result (`send_ok`) is inspected only for logging
    let _ := send_ok
    (.cont, some (ws_frame_text a))

/- ### Injector (`inject.rs`) -/

namespace inject

/-- The script tag inserted by `inject::into`:
`<script src="{control_path}/client.js" defer></script>`. -/
def script_tag (control_path : List Char) : List Char :=
  "<script src=\"".toList ++ control_path ++ "/client.js\" defer></script>".toList

/-- The scanning loop of `inject::into`: walk over every suffix of the
input, remember the index of the latest `</body>` seen outside a
comment, and toggle the comment flag on `<!--` / `-->`. `i` is the index
of the current suffix, `found` the last recorded index. -/
def scanBody : List Char → Bool → Nat → Option Nat → Option Nat
  | [], _, _, found => found
  | l@(_ :: rest), inside, i, found =>
    if !inside && "</body>".toList.isPrefixOf l then
      scanBody rest inside (i + 1) (some i)
    else if !inside && "<!--".toList.isPrefixOf l then
      scanBody rest true (i + 1) found
    else if inside && "-->".toList.isPrefixOf l then
      scanBody rest false (i + 1) found
    else
      scanBody rest inside (i + 1) found

/-- `inject::into` from `inject.rs`: insert the script tag at the last
closing body tag found outside of comments, or at the very end. -/
def into (input : List Char) (control_path : List Char) : List Char :=
  let insert_idx := (scanBody input false 0 none).getD input.length
  input.take insert_idx ++ script_tag control_path ++ input.drop insert_idx

/-- Comment-state transition of the scanner at one suffix `l`: entering
a comment on `<!--`, leaving it on `-->`. (When `</body>` matches in the
scanner, neither `<!--` nor `-->` can match, so the scanner performs
exactly this transition at every position.) -/
def comment_step (l : List Char) (s : Bool) : Bool :=
  if !s && "<!--".toList.isPrefixOf l then true
  else if s && "-->".toList.isPrefixOf l then false
  else s

/-- Comment state after advancing `i` positions into the list, starting
from state `s`. -/
def cstate : List Char → Bool → Nat → Bool
  | _, s, 0 => s
  | [], s, _ + 1 => s
  | l@(_ :: rest), s, i + 1 => cstate rest (comment_step l s) i

/-- Specification-side predicate: position `i` of `input` carries a
`</body>` that is not inside an HTML comment. -/
def nonCommentedBodyAt (input : List Char) (i : Nat) : Prop :=
  cstate input false i = false ∧ "</body>".toList.isPrefixOf (input.drop i) = true

instance (input : List Char) (i : Nat) : Decidable (nonCommentedBodyAt input i) := by
  unfold nonCommentedBodyAt; infer_instance

/-- All (relative) indices of non-commented `</body>` occurrences, in
increasing order, starting in comment state `s`. -/
def bodyIdxs : List Char → Bool → List Nat
  | [], _ => []
  | l@(_ :: rest), s =>
    (if !s && "</body>".toList.isPrefixOf l then [0] else [])
      ++ (bodyIdxs rest (comment_step l s)).map (· + 1)

end inject

/- ### File backend (`serve/fs.rs`) -/

/-- `str::strip_prefix`, on `List Char`. -/
def stripPre (p l : List Char) : Option (List Char) :=
  if p.isPrefixOf l then some (l.drop p.length) else none

/-- `Iterator::max_by_key` specialised to `Nat` keys: a fold that keeps
the current maximum and replaces it whenever a later element has a key
greater than or equal to it (so ties are broken by the last element, as
documented for the Rust iterator adapter). -/
def max_by_key {α : Type} (f : α → Nat) (l : List α) : Option α :=
  l.foldl
    (fun acc x => match acc with
      | none => some x
      | some a => if f a ≤ f x then some x else some a)
    none

/-- `try_serve` from `serve/fs.rs`, reduced to mount selection: keep the
mounts whose `uri_path` is a prefix of the request path together with the
stripped subpath (leading slashes removed), and take the one with the
longest `uri_path`. -/
def try_serve (path : List Char) (mounts : List Mount) : Option (List Char × Mount) :=
  max_by_key (fun p => p.2.uri_path.length)
    (mounts.filterMap (fun mount =>
      (stripPre mount.uri_path path).map
        (fun subpath => (subpath.dropWhile (· = '/'), mount))))

/-- Result of `tokio::fs::canonicalize` as matched by the
`canonicalize!` macro in `serve/fs.rs`: success, a `NotFound` error
(answered with 404), or any other error (a panic). -/
inductive CanonResult where
  | ok (p : FsPath)
  | notFound
  | otherErr
deriving DecidableEq

/-- A parsed byte range (`http_range::HttpRange`). -/
structure HttpRange where
  start : Nat
  length : Nat
deriving DecidableEq

/-- Result of `HttpRange::parse_bytes` as matched in `serve_file`. -/
inductive RangeParse where
  | ok (ranges : List HttpRange)
  | errInvalidRange
  | errNoOverlap
deriving DecidableEq

/-- The filesystem and external-library environment of the file backend.
`canon` models `tokio::fs::canonicalize`, `pathExists`/`isFile` the
`Path` queries, `mimeOf` the `mime_guess` lookup, `fileSize`/`readFile`
the metadata and content reads (read errors, which panic in the source,
are not modelled), `readDirOk` whether `read_dir` succeeds, and
`parseRange` the `http_range` crate parser (given the header value and
the file size). -/
structure FileSys where
  canon : FsPath → CanonResult
  pathExists : FsPath → Bool
  isFile : FsPath → Bool
  mimeOf : FsPath → Option String
  fileSize : FsPath → Nat
  readFile : FsPath → List Char
  readDirOk : FsPath → Bool
  parseRange : List Char → Nat → RangeParse

/-- An incoming request, reduced to what the file backend inspects: the
URI path and the value of the `Range` header, if present. -/
structure Request where
  path : List Char
  range : Option (List Char)
deriving DecidableEq

/-- Body of the 400 reply for multi-range requests in `serve_file`:
`multiple ranges in (sq)Range(sq) header not supported`. -/
def multiRangeBody : String :=
  "multiple ranges in ".pushn sq 1 ++ "Range".pushn sq 1 ++ " header not supported"

/-- The `Content-Range` header value built in `serve_file`:
`bytes {start}-{start + length}/{file_size}` (verbatim from the source,
including its missing `- 1`). -/
def contentRangeVal (r : HttpRange) (file_size : Nat) : String :=
  "bytes " ++ toString r.start ++ "-" ++ toString (r.start + r.length)
    ++ "/" ++ toString file_size

/-- `serve_file` from `serve/fs.rs`. HTML files (by MIME guess) are read
fully, injected and served with `Content-Length`; other files are
streamed with `Accept-Ranges`. A `Range` header on a non-HTML file is
parsed with `HttpRange::parse_bytes`: exactly one range yields 206,
several yield 400, `NoOverlap` yields 416, and `InvalidRange` hits the
`todo!()` in the source, i.e. a panic. -/
def serve_file (version : String) (fs : FileSys) (path : FsPath) (req : Request)
    (control_path : List Char) : Outcome :=
  let mime := fs.mimeOf path
  if mime.elim false (fun m => "text/html".toList.isPrefixOf m.toList) then
    let raw := fs.readFile path
    let html := inject.into raw control_path
    .ok { status := 200
          headers := [("Content-Type", "text/html"),
                      ("Content-Length", toString html.length),
                      ("Server", SERVER_HEADER version)]
          body := String.mk html }
  else
    let file_size := fs.fileSize path
    let baseHeaders :=
      [("Server", SERVER_HEADER version), ("Accept-Ranges", "bytes")]
        ++ (match mime with | some m => [("Content-Type", m)] | none => [])
    match req.range with
    | some range_header =>
      match fs.parseRange range_header file_size with
      | .ok [r] =>
        .ok { status := 206
              headers := baseHeaders
                ++ [("Content-Length", toString r.length),
                    ("Content-Range", contentRangeVal r file_size)]
              body := "" }
      | .ok _ =>
        .ok { status := 400
              headers := [("Server", SERVER_HEADER version)]
              body := multiRangeBody }
      | .errInvalidRange => .panicked "not yet implemented"
      | .errNoOverlap =>
        .ok { status := 416
              headers := [("Server", SERVER_HEADER version)]
              body := "" }
    | none =>
      .ok { status := 200
            headers := baseHeaders ++ [("Content-Length", toString file_size)]
            body := "" }

/-- `serve_dir` from `serve/fs.rs`: list a directory. An IO error while
reading the directory panics (`expect`). The rendered template body
(`assets/dir-listing.html`, not part of the embedded sources) is not
modelled; the status and headers are as in the source. -/
def serve_dir (version : String) (fs : FileSys) (path : FsPath) : Outcome :=
  if fs.readDirOk path then
    .ok { status := 200
          headers := [("Content-Type", "text/html; charset=utf-8"),
                      ("Server", SERVER_HEADER version)]
          body := "" }
  else
    .panicked "failed to read directory contents due to IO error"

/-- `serve` from `serve/fs.rs`: canonicalize the resolved path and the
mount root, answer 404 when either does not exist, 400 when the
canonical resolved path does not start with the canonical root, and
otherwise dispatch to file or directory serving (with an `index.html`
fallback for directories). -/
def serve (version : String) (fs : FileSys) (req : Request) (subpath : FsPath)
    (fs_root : FsPath) (control_path : List Char) : Outcome :=
  let path := fs_root ++ subpath
  match fs.canon path with
  | .notFound => .ok (not_found version)
  | .otherErr => .panicked "unhandled error: could not canonicalize path"
  | .ok canonical_req =>
    match fs.canon fs_root with
    | .notFound => .ok (not_found version)
    | .otherErr => .panicked "unhandled error: could not canonicalize path"
    | .ok canonical_root =>
      if !canonical_root.isPrefixOf canonical_req then
        .ok (bad_request version "Bad request: requested file outside of served directory\n")
      else if !fs.pathExists path then
        .ok (not_found version)
      else if fs.isFile path then
        serve_file version fs path req control_path
      else if fs.isFile (path ++ ["index.html"]) then
        serve_file version fs (path ++ ["index.html"]) req control_path
      else
        serve_dir version fs path

/- ### Router (`serve/mod.rs`) -/

/-- The backend chosen by `handle` in `serve/mod.rs` for a request. -/
inductive Routed where
  | control
  | file (subpath : List Char) (mount : Mount)
  | proxied (target : ProxyTarget)
  | notFound404
deriving DecidableEq

/-- The dispatch order of `handle` in `serve/mod.rs`: control path
match first, then the file backend (`try_serve`), then the proxy if one
is configured, else 404. -/
def handle_route (cfg : Config) (path : List Char) : Routed :=
  if cfg.control_path.isPrefixOf path then .control
  else
    match try_serve path cfg.mounts with
    | some (subpath, mount) => .file subpath mount
    | none =>
      match cfg.proxy with
      | some target => .proxied target
      | none => .notFound404

/- ### Re-availability poller (`serve/proxy.rs`) -/

/-- The observable state of `ProxyContext` plus the set of spawned
poller tasks: the `is_polling_target` atomic flag and the number of
poller tasks that are still running their polling loop. -/
structure PollState where
  is_polling_target : Bool
  activePollers : Nat
deriving DecidableEq

/-- `start_polling` from `serve/proxy.rs`, reduced to its effect on
`PollState`: the `compare_exchange(false, true, SeqCst, SeqCst)` either
fails (flag already `true`: return at once, spawn nothing) or succeeds
(set the flag and spawn one poller task). The returned `Bool` records
whether a task was spawned. -/
def start_polling (s : PollState) : PollState × Bool :=
  if s.is_polling_target then (s, false)
  else ({ is_polling_target := true, activePollers := s.activePollers + 1 }, true)

/-- States of the polling subsystem reachable from server start. A
running poller either probes unsuccessfully (no state change) or, on its
first successful probe, sends `Reload`, stores `false` into the flag and
breaks out of its loop (`succeed`). -/
inductive PollReach : PollState → Prop where
  | init : PollReach ⟨false, 0⟩
  | start (s : PollState) : PollReach s → PollReach (start_polling s).1
  | succeed (s : PollState) : PollReach s → 1 ≤ s.activePollers →
      PollReach ⟨false, s.activePollers - 1⟩

/- ### CSP rewriting (`rewrite_csp` in `serve/proxy.rs`) -/

/-- ASCII whitespace, as recognised by `str::trim` and
`str::split_whitespace` (the non-ASCII Unicode whitespace characters are
not modelled). -/
def isWsC (c : Char) : Bool :=
  c.toNat == 9 || c.toNat == 10 || c.toNat == 11 || c.toNat == 12 ||
    c.toNat == 13 || c.toNat == 32

/-- `slice::split` on one separator character: splitting `[]` gives one
empty part, and every separator occurrence starts a new part. -/
def splitOnC (sep : Char) : List Char → List (List Char)
  | [] => [[]]
  | c :: rest =>
    if c = sep then [] :: splitOnC sep rest
    else
      match splitOnC sep rest with
      | [] => [[c]]
      | t :: ts => (c :: t) :: ts

/-- Worker for `splitWs`: `acc` holds the reversed characters of the
token currently being read. -/
def splitWsAux : List Char → List Char → List (List Char)
  | [], acc => if acc.isEmpty then [] else [acc.reverse]
  | c :: rest, acc =>
    if isWsC c then
      if acc.isEmpty then splitWsAux rest []
      else acc.reverse :: splitWsAux rest []
    else splitWsAux rest (c :: acc)

/-- `str::split_whitespace`: the maximal whitespace-free nonempty
chunks of the list. -/
def splitWs (l : List Char) : List (List Char) :=
  splitWsAux l []

/-- `str::trim`: drop leading and trailing whitespace. -/
def trimC (l : List Char) : List Char :=
  ((l.dropWhile isWsC).reverse.dropWhile isWsC).reverse

/-- `u8::to_ascii_lowercase`, on chars. -/
def asciiLower (c : Char) : Char :=
  if 65 ≤ c.toNat && c.toNat ≤ 90 then Char.ofNat (c.toNat + 32) else c

/-- `str::to_ascii_lowercase`. -/
def asciiLowerStr (l : List Char) : List Char :=
  l.map asciiLower

/-- The parsed policy: directive names mapped to source-expression
lists. `BTreeMap<String, Vec<&str>>` is modelled as an association list
kept sorted by name (`strLt`), which is how the B-tree iterates. -/
abbrev CspMap := List (List Char × List (List Char))

/-- Lexicographic (strict) order on strings, matching `Ord` on Rust
`String` (UTF-8 byte order equals scalar-value order). -/
def strLt : List Char → List Char → Bool
  | [], [] => false
  | [], _ :: _ => true
  | _ :: _, [] => false
  | a :: as, b :: bs => if a = b then strLt as bs else decide (a < b)

/-- `BTreeMap::entry` with `Entry::Vacant(e) => e.insert(v)` and
`Entry::Occupied => ()` (first binding wins), on the sorted association
list. -/
def map_insert_vacant (k : List Char) (v : List (List Char)) : CspMap → CspMap
  | [] => [(k, v)]
  | (k₀, v₀) :: rest =>
    if strLt k k₀ then (k, v) :: (k₀, v₀) :: rest
    else if k = k₀ then (k₀, v₀) :: rest
    else (k₀, v₀) :: map_insert_vacant k v rest

/-- `BTreeMap::get`. -/
def map_lookup (k : List Char) : CspMap → Option (List (List Char))
  | [] => none
  | (k₀, v₀) :: rest => if k = k₀ then some v₀ else map_lookup k rest

/-- `BTreeMap::entry(k).or_default()` followed by an in-place update of
the value. -/
def map_update (k : List Char) (f : List (List Char) → List (List Char)) :
    CspMap → CspMap
  | [] => [(k, f [])]
  | (k₀, v₀) :: rest =>
    if strLt k k₀ then (k, f []) :: (k₀, v₀) :: rest
    else if k = k₀ then (k₀, f v₀) :: rest
    else (k₀, v₀) :: map_update k f rest

/-- The `script-src` directive name. -/
def script_src : List Char := "script-src".toList

/-- The `connect-src` directive name. -/
def connect_src : List Char := "connect-src".toList

/-- The `default-src` directive name. -/
def default_src : List Char := "default-src".toList

/-- The CSP source expression `(sq)self(sq)`. -/
def SELF : List Char := sq :: "self".toList ++ [sq]

/-- The CSP source expression `*`. -/
def STAR : List Char := ['*']

/-- The CSP source expression `(sq)none(sq)`. -/
def NONE_E : List Char := sq :: "none".toList ++ [sq]

/-- `v.contains(&"(sq)self(sq)") || v.contains(&"*")` from
`rewrite_csp`. -/
def allows (vs : List (List Char)) : Bool :=
  vs.contains SELF || vs.contains STAR

/-- `directives.get(name).or_else(|| directives.get("default-src"))`. -/
def lookup_or_default (m : CspMap) (name : List Char) : Option (List (List Char)) :=
  (map_lookup name m).orElse (fun _ => map_lookup default_src m)

/-- One `;`-separated token of the CSP header, as processed inside the
`for_each` of `rewrite_csp`: trim, split on whitespace, lowercase the
first token as the directive name. A whitespace-only (but nonempty)
token makes `split.next().expect(..)` panic in the source, modelled as
`none`. -/
def add_directive (m : CspMap) (part : List Char) : Option CspMap :=
  match splitWs (trimC part) with
  | [] => none
  | name :: values => some (map_insert_vacant (asciiLowerStr name) values m)

/-- The parsing phase of `rewrite_csp`: split the header on `;`, drop
empty tokens, and add each remaining token as a directive (first
occurrence of a name wins). `none` models the `expect` panic on a
whitespace-only token. (The `from_utf8` filter of the source never drops
anything in this character-level model.) -/
def parse_policy (h : List Char) : Option CspMap :=
  ((splitOnC ';' h).filter (fun p => p != [])).foldlM add_directive []

/-- One token step of the CSP3-style parse: a whitespace-only token is
skipped instead of panicking. -/
def add_directive_spec (m : CspMap) (part : List Char) : CspMap :=
  match splitWs (trimC part) with
  | [] => m
  | name :: values => map_insert_vacant (asciiLowerStr name) values m

/-- The same parse as `parse_policy`, but skipping whitespace-only
tokens as W3C CSP3 prescribes. It agrees with `parse_policy` whenever
the latter does not panic, and is total, so it can also describe how a
browser reads the rewritten header. -/
def parse_policy_spec (h : List Char) : CspMap :=
  ((splitOnC ';' h).filter (fun p => p != [])).foldl add_directive_spec []

/-- `retain(|src| *src != "(sq)none(sq)")` followed by
`push("(sq)self(sq)")`. -/
def modify_sources (vs : List (List Char)) : List (List Char) :=
  vs.filter (fun src => src != NONE_E) ++ [SELF]

/-- One serialized directive: the name, a space before every value, and
a terminating `"; "` (the source pushes `"; "` after every directive,
including the last). -/
def serialize_entry (e : List Char × List (List Char)) : List Char :=
  e.1 ++ (e.2.map (fun v => ' ' :: v)).flatten ++ [';', ' ']

/-- The serialization loop of `rewrite_csp`, iterating the map in
sorted name order. -/
def serialize_policy (m : CspMap) : List Char :=
  (m.map serialize_entry).flatten

/-- `rewrite_csp` from `serve/proxy.rs`: parse the header; if `self` (or
`*`) is already allowed for both scripts and connects (falling back to
`default-src`, and treating a fully absent directive as allowed), return
the header unchanged; otherwise add `(sq)self(sq)` (dropping
`(sq)none(sq)`) to each directive that lacks it and re-serialize.
`none` models the parse panic on a whitespace-only `;`-token. -/
def rewrite_csp (h : List Char) : Option (List Char) :=
  match parse_policy h with
  | none => none
  | some directives =>
    let scripts_from_self_allowed := (lookup_or_default directives script_src).elim true allows
    let connect_to_self_allowed := (lookup_or_default directives connect_src).elim true allows
    if scripts_from_self_allowed && connect_to_self_allowed then
      some h
    else
      let directives :=
        if scripts_from_self_allowed then directives
        else map_update script_src modify_sources directives
      let directives :=
        if connect_to_self_allowed then directives
        else map_update connect_src modify_sources directives
      some (serialize_policy directives)

/-- The condition of the claim, read off the parsed directive set: both
`script-src` and `connect-src` (falling back to `default-src`, absent
meaning allowed) already permit `(sq)self(sq)` or `*`. -/
def csp_permits_both (h : List Char) : Bool :=
  let ds := parse_policy_spec h
  ((lookup_or_default ds script_src).elim true allows)
    && ((lookup_or_default ds connect_src).elim true allows)

/-- Are the directive names strictly sorted (every name `strLt`-below
all later ones)? -/
def keysSorted : CspMap → Bool
  | [] => true
  | (k, _) :: rest => rest.all (fun e => strLt k e.1) && keysSorted rest

/-- The permission check of the claim on an already parsed directive
set. -/
def permB (m : CspMap) : Bool :=
  ((lookup_or_default m script_src).elim true allows)
    && ((lookup_or_default m connect_src).elim true allows)

/-- A well-formed CSP token: nonempty, free of whitespace and of `;`. -/
def wfTok (t : List Char) : Prop :=
  t ≠ [] ∧ ∀ c ∈ t, isWsC c = false ∧ c ≠ (sc : Char)

/-- A well-formed directive entry: well-formed lowercase name and
well-formed values. -/
def wfEntry (e : List Char × List (List Char)) : Prop :=
  wfTok e.1 ∧ asciiLowerStr e.1 = e.1 ∧ ∀ v ∈ e.2, wfTok v

/-- All entries of the map are well formed. -/
def wfMap (m : CspMap) : Prop := ∀ e ∈ m, wfEntry e

/-- The last element of a list of naturals, if any (a structurally
recursive replacement for `List.getLast?` with convenient equations). -/
def lastN : List Nat → Option Nat
  | [] => none
  | [x] => some x
  | _ :: y :: ys => lastN (y :: ys)

/- ### Concrete instances used by witnesses and counterexamples -/

/-- A builder with no proxy target set. -/
def builder0 : Builder := ⟨⟨"127.0.0.1:4090", none, [], "/~~penguin".toList⟩⟩

/-- A sample proxy target. -/
def target0 : ProxyTarget := ⟨"http", "localhost:8000"⟩

/-- `builder0` after setting `target0` as proxy. -/
def builder0p : Builder := ⟨⟨"127.0.0.1:4090", some target0, [], "/~~penguin".toList⟩⟩

/-- A small concrete filesystem: a root directory `root` containing one
plain-text file `a.txt`; canonicalization maps `root` to `croot`.
The range parser always reports a syntactically invalid range. -/
def fsA : FileSys where
  canon := fun p =>
    if p == ["root"] then .ok ["croot"]
    else if p == ["root", "a.txt"] then .ok ["croot", "a.txt"]
    else .notFound
  pathExists := fun p => p == ["root"] || p == ["root", "a.txt"]
  isFile := fun p => p == ["root", "a.txt"]
  mimeOf := fun _ => some "text/plain"
  fileSize := fun _ => 10
  readFile := fun _ => []
  readDirOk := fun _ => true
  parseRange := fun _ _ => .errInvalidRange

/-- A request for `/a.txt` with no `Range` header. -/
def reqA : Request := ⟨"/a.txt".toList, none⟩

/-- The response `fsA` produces for `reqA` under version `1.0`. -/
def fileRespA : Response :=
  { status := 200
    headers := [("Server", "Penguin v1.0"), ("Accept-Ranges", "bytes"),
                ("Content-Type", "text/plain"), ("Content-Length", "10")]
    body := "" }

/-- A filesystem whose canonicalization sends the resolved path outside
the root: `root` canonicalizes to `croot` but `root/../secret`
canonicalizes to `secret`. -/
def fsB : FileSys where
  canon := fun p =>
    if p == ["root"] then .ok ["croot"]
    else if p == ["root", "..", "secret"] then .ok ["secret"]
    else .notFound
  pathExists := fun _ => false
  isFile := fun _ => false
  mimeOf := fun _ => none
  fileSize := fun _ => 0
  readFile := fun _ => []
  readDirOk := fun _ => true
  parseRange := fun _ _ => .errNoOverlap

/-- A request for the traversal path `/../secret`. -/
def reqB : Request := ⟨"/../secret".toList, none⟩

/-- Mount of `/a` on directory `A`. -/
def mountA : Mount := ⟨"/a".toList, ["A"]⟩

/-- Mount of `/a/b` on directory `B`. -/
def mountB : Mount := ⟨"/a/b".toList, ["B"]⟩

/-- A config carrying the two nested mounts and no proxy. -/
def cfgC : Config := ⟨"127.0.0.1:4090", none, [mountA, mountB], "/~~penguin".toList⟩

/-- A filesystem with one binary file of 100 bytes, whose range parser
recognises a handful of concrete `Range` header values. -/
def fsR : FileSys where
  canon := fun p => .ok p
  pathExists := fun _ => true
  isFile := fun _ => true
  mimeOf := fun _ => some "application/octet-stream"
  fileSize := fun _ => 100
  readFile := fun _ => []
  readDirOk := fun _ => true
  parseRange := fun h _ =>
    if h == "bytes=10-19".toList then .ok [⟨10, 10⟩]
    else if h == "bytes=0-1,5-6".toList then .ok [⟨0, 2⟩, ⟨5, 2⟩]
    else if h == "bytes=200-300".toList then .errNoOverlap
    else .errInvalidRange

/-- Witness input header: `default-src (sq)none(sq)`. -/
def cspInW : List Char := "default-src ".toList ++ NONE_E

/-- Witness output header:
`connect-src (sq)self(sq); default-src (sq)none(sq); script-src (sq)self(sq); `. -/
def cspOutW : List Char :=
  "connect-src ".toList ++ SELF ++ "; default-src ".toList ++ NONE_E
    ++ "; script-src ".toList ++ SELF ++ [';', ' ']

/- ## Theorems -/

/-- The accumulator fold behind `max_by_key`: a `some` result is an
element of the list or the initial accumulator. -/
theorem foldl_max_mem {α : Type} (f : α → Nat) :
    ∀ (l : List α) (acc : Option α) (a : α),
      l.foldl
        (fun acc x => match acc with
          | none => some x
          | some a => if f a ≤ f x then some x else some a)
        acc = some a →
      a ∈ l ∨ acc = some a := by
  intro l
  induction l with
  | nil => intro acc a h; exact Or.inr h
  | cons x xs ih =>
    intro acc a h
    simp only [List.foldl_cons] at h
    rcases ih _ a h with hmem | heq
    · exact Or.inl (List.mem_cons_of_mem _ hmem)
    · cases acc with
      | none =>
        cases heq
        exact Or.inl (List.mem_cons_self _ _)
      | some b =>
        by_cases hle : f b ≤ f x
        · simp only [hle, if_true] at heq
          cases heq
          exact Or.inl (List.mem_cons_self _ _)
        · simp only [hle, if_false] at heq
          exact Or.inr heq

/-- The accumulator fold behind `max_by_key`: a `some` result has the
greatest key among the list elements and the initial accumulator. -/
theorem foldl_max_ge {α : Type} (f : α → Nat) :
    ∀ (l : List α) (acc : Option α) (a : α),
      l.foldl
        (fun acc x => match acc with
          | none => some x
          | some a => if f a ≤ f x then some x else some a)
        acc = some a →
      (∀ x ∈ l, f x ≤ f a) ∧ (∀ b, acc = some b → f b ≤ f a) := by
  intro l
  induction l with
  | nil =>
    intro acc a h
    exact ⟨by simp, fun b hb => by rw [hb] at h; cases h; exact le_refl _⟩
  | cons x xs ih =>
    intro acc a h
    simp only [List.foldl_cons] at h
    have step := ih _ a h
    have hx : f x ≤ f a := by
      cases acc with
      | none => exact step.2 x rfl
      | some b =>
        by_cases hle : f b ≤ f x
        · exact step.2 x (by simp [hle])
        · exact le_trans (le_of_not_le hle) (step.2 b (by simp [hle]))
    refine ⟨fun y hy => ?_, fun b hb => ?_⟩
    · rcases List.mem_cons.mp hy with rfl | hy'
      · exact hx
      · exact step.1 y hy'
    · subst hb
      by_cases hle : f b ≤ f x
      · exact le_trans hle hx
      · exact step.2 b (by simp [hle])

/-- The accumulator fold behind `max_by_key` never forgets a `some`
accumulator: a `none` result forces an empty list and `none` start. -/
theorem foldl_max_none {α : Type} (f : α → Nat) :
    ∀ (l : List α) (acc : Option α),
      l.foldl
        (fun acc x => match acc with
          | none => some x
          | some a => if f a ≤ f x then some x else some a)
        acc = none →
      acc = none ∧ l = [] := by
  intro l
  induction l with
  | nil => intro acc h; exact ⟨h, rfl⟩
  | cons x xs ih =>
    intro acc h
    simp only [List.foldl_cons] at h
    have := (ih _ h).1
    cases acc with
    | none => cases this
    | some b =>
      by_cases hle : f b ≤ f x <;> simp [hle] at this

/-- C5: in every reachable state of the polling subsystem at most one
poller task is active; while the `is_polling_target` flag is set (which
it is between a successful compare-and-swap acquisition and the clear on
the first successful probe), every further call to `start_polling`
returns without spawning a task and leaves the state unchanged. -/
theorem start_polling_single_poller :
    ∀ s : PollState, PollReach s →
      s.activePollers ≤ 1 ∧
      (s.is_polling_target = false → s.activePollers = 0) ∧
      (s.is_polling_target = true → start_polling s = (s, false)) := by
  intro s h
  induction h with
  | init => simp [start_polling]
  | start s' _ ih =>
    by_cases hf : s'.is_polling_target
    · simpa [start_polling, hf] using ih
    · simp only [Bool.not_eq_true] at hf
      have h0 : s'.activePollers = 0 := ih.2.1 hf
      simp [start_polling, hf, h0]
  | succeed s' _ hge ih =>
    have h1 := ih.1
    refine ⟨?_, fun _ => ?_, fun hcontra => by simp at hcontra⟩
    · show s'.activePollers - 1 ≤ 1
      omega
    · show s'.activePollers - 1 = 0
      omega

/-- C5 witness: the state with the flag set and one active poller is
reachable, and there `start_polling` spawns nothing. -/
theorem start_polling_single_poller_witness :
    (⟨true, 1⟩ : PollState).activePollers ≤ 1 ∧
    ((⟨true, 1⟩ : PollState).is_polling_target = false →
      (⟨true, 1⟩ : PollState).activePollers = 0) ∧
    ((⟨true, 1⟩ : PollState).is_polling_target = true →
      start_polling ⟨true, 1⟩ = (⟨true, 1⟩, false)) :=
  start_polling_single_poller ⟨true, 1⟩
    (PollReach.start ⟨false, 0⟩ PollReach.init)

/-- C7 counterexample: when the broadcast receiver delivers a `Reload`
action and the WebSocket send fails, the session loop continues; it does
not end, contradicting the claim that a send failure ends the session. -/
theorem ws_send_failure_continues :
    action_arm (.Recv .Reload) false = (.cont, some "reload".toList) ∧
    LoopCtl.cont ≠ LoopCtl.brk := by
  exact ⟨rfl, by decide⟩

/-- C7 amended: on the action side of the session loop, `Closed` ends
the session; `Lagged(n)` is logged and the session continues; a received
action has its text frame sent, and the session continues whether or not
the send succeeded (a send failure is only logged). -/
theorem ws_action_arm_spec :
    ∀ (send_ok : Bool) (a : Action) (n : Nat),
      action_arm .Closed send_ok = (.brk, none) ∧
      action_arm (.Lagged n) send_ok = (.cont, none) ∧
      action_arm (.Recv a) send_ok = (.cont, some (ws_frame_text a)) := by
  intro _ _ _
  exact ⟨rfl, rfl, rfl⟩

/-- C9: evaluation of the code at the failing input. `normalize_path`
pops only one character, so `/foo//` normalizes to `/foo/`, which still
ends in a slash and is not the root path, and `add_mount` stores exactly
that string — contradicting the documented invariant that a stored
`uri_path` does not end in `/` unless it is exactly `/`. -/
theorem normalize_path_keeps_second_trailing_slash :
    normalize_path "/foo//".toList = "/foo/".toList ∧
    ("/foo/".toList).getLast? = some '/' ∧
    "/foo/".toList ≠ "/".toList ∧
    Builder.add_mount ⟨⟨"a", none, [], "/~~penguin".toList⟩⟩ "/foo//".toList ["d"]
      = .ok ⟨⟨"a", none, [⟨"/foo/".toList, ["d"]⟩], "/~~penguin".toList⟩⟩ := by
  refine ⟨by decide, by decide, by decide, rfl⟩

/-- C10: `Builder::proxy` panics exactly when a proxy target is already
set; on a builder without one it returns the builder with the target
stored and every other field unchanged. -/
theorem builder_proxy_panics_iff :
    ∀ (b : Builder) (t : ProxyTarget),
      (b.toConfig.proxy = none →
        Builder.proxy b t = .ok ⟨{ b.toConfig with proxy := some t }⟩ ∧
        ∀ b', Builder.proxy b t = .ok b' →
          b'.toConfig.proxy = some t ∧
          b'.toConfig.mounts = b.toConfig.mounts ∧
          b'.toConfig.control_path = b.toConfig.control_path ∧
          b'.toConfig.bind_addr = b.toConfig.bind_addr) ∧
      (∀ prev, b.toConfig.proxy = some prev →
        Builder.proxy b t = .error "Builder::proxy called a second time") := by
  intro b t
  constructor
  · intro hnone
    have hres : Builder.proxy b t = .ok ⟨{ b.toConfig with proxy := some t }⟩ := by
      simp [Builder.proxy, hnone]
    refine ⟨hres, fun b' hb' => ?_⟩
    rw [hres] at hb'
    cases hb'
    simp
  · intro prev hsome
    simp [Builder.proxy, hsome]

/-- C10 witness: setting a proxy on a fresh builder succeeds and stores
the target. -/
theorem builder_proxy_panics_iff_witness :
    Builder.proxy builder0 target0 = .ok builder0p :=
  ((builder_proxy_panics_iff builder0 target0).1 rfl).1

/-- A response whose header list contains the `Server` pair satisfies
`hasServerHeader`. -/
theorem hasServerHeader_of_mem {version : String} {r : Response}
    (h : ("Server", SERVER_HEADER version) ∈ r.headers) :
    hasServerHeader version r = true := by
  simp only [hasServerHeader, List.any_eq_true, beq_iff_eq]
  exact ⟨("Server", SERVER_HEADER version), h, rfl⟩

/-- Every response `serve_file` produces carries the `Server` header. -/
theorem serve_file_server_header :
    ∀ (version : String) (fs : FileSys) (path : FsPath) (req : Request)
      (control_path : List Char) (r : Response),
      serve_file version fs path req control_path = .ok r →
      hasServerHeader version r = true := by
  intro version fs path req cp r h
  cases hmime : (fs.mimeOf path).elim false (fun m => "text/html".toList.isPrefixOf m.toList) with
  | true =>
    simp only [serve_file, hmime, eq_self_iff_true, if_true] at h
    cases h
    apply hasServerHeader_of_mem
    simp
  | false =>
    cases hr : req.range with
    | none =>
      simp only [serve_file, hmime, hr, Bool.false_eq_true, if_false] at h
      cases h
      apply hasServerHeader_of_mem
      simp
    | some rh =>
      cases hp : fs.parseRange rh (fs.fileSize path) with
      | ok ranges =>
        match ranges with
        | [] =>
          simp only [serve_file, hmime, hr, hp, Bool.false_eq_true, if_false] at h
          cases h
          apply hasServerHeader_of_mem
          simp
        | [r0] =>
          simp only [serve_file, hmime, hr, hp, Bool.false_eq_true, if_false] at h
          cases h
          apply hasServerHeader_of_mem
          simp
        | r0 :: r1 :: rest =>
          simp only [serve_file, hmime, hr, hp, Bool.false_eq_true, if_false] at h
          cases h
          apply hasServerHeader_of_mem
          simp
      | errInvalidRange =>
        simp only [serve_file, hmime, hr, hp, Bool.false_eq_true, if_false] at h
        exact Outcome.noConfusion h
      | errNoOverlap =>
        simp only [serve_file, hmime, hr, hp, Bool.false_eq_true, if_false] at h
        cases h
        apply hasServerHeader_of_mem
        simp

/-- Every response `serve_dir` produces carries the `Server` header. -/
theorem serve_dir_server_header :
    ∀ (version : String) (fs : FileSys) (path : FsPath) (r : Response),
      serve_dir version fs path = .ok r → hasServerHeader version r = true := by
  intro version fs path r h
  unfold serve_dir at h
  split at h
  · cases h; apply hasServerHeader_of_mem; simp
  · exact Outcome.noConfusion h

/-- Every response the file backend (`serve`) produces carries the
`Server` header. -/
theorem serve_server_header :
    ∀ (version : String) (fs : FileSys) (req : Request) (subpath fs_root : FsPath)
      (control_path : List Char) (r : Response),
      serve version fs req subpath fs_root control_path = .ok r →
      hasServerHeader version r = true := by
  intro version fs req sub root cp r h
  cases hc1 : fs.canon (root ++ sub) with
  | notFound =>
    simp only [serve, hc1] at h
    cases h
    apply hasServerHeader_of_mem
    simp [not_found]
  | otherErr =>
    simp only [serve, hc1] at h
    exact Outcome.noConfusion h
  | ok creq =>
    cases hc2 : fs.canon root with
    | notFound =>
      simp only [serve, hc1, hc2] at h
      cases h
      apply hasServerHeader_of_mem
      simp [not_found]
    | otherErr =>
      simp only [serve, hc1, hc2] at h
      exact Outcome.noConfusion h
    | ok croot =>
      cases hpre : croot.isPrefixOf creq with
      | false =>
        simp only [serve, hc1, hc2, hpre, Bool.not_false, eq_self_iff_true, if_true] at h
        cases h
        apply hasServerHeader_of_mem
        simp [bad_request]
      | true =>
        cases hex : fs.pathExists (root ++ sub) with
        | false =>
          simp only [serve, hc1, hc2, hpre, hex, Bool.not_true, Bool.not_false,
            Bool.false_eq_true, if_false, eq_self_iff_true, if_true] at h
          cases h
          apply hasServerHeader_of_mem
          simp [not_found]
        | true =>
          cases hf1 : fs.isFile (root ++ sub) with
          | true =>
            simp only [serve, hc1, hc2, hpre, hex, hf1, Bool.not_true, Bool.false_eq_true,
              if_false, eq_self_iff_true, if_true] at h
            exact serve_file_server_header _ _ _ _ _ _ h
          | false =>
            cases hf2 : fs.isFile (root ++ (sub ++ ["index.html"])) with
            | true =>
              simp only [serve, hc1, hc2, hpre, hex, hf1, hf2, Bool.not_true,
                Bool.false_eq_true, if_false, eq_self_iff_true, if_true, List.append_assoc] at h
              exact serve_file_server_header _ _ _ _ _ _ h
            | false =>
              simp only [serve, hc1, hc2, hpre, hex, hf1, hf2, Bool.not_true,
                Bool.false_eq_true, if_false, eq_self_iff_true, if_true, List.append_assoc] at h
              exact serve_dir_server_header _ _ _ _ h

/-- C8 counterexample: the 200-empty reply of the control handler to
`POST /reload` and `POST /message` (`Response::new(Body::empty())`)
carries no `Server` header at all, contradicting the claim that every
response does. -/
theorem control_ok_lacks_server_header :
    hasAnyServerHeader control_ok_response = false := rfl

/-- C8 amended: the responses the server builds itself — the 400, 404
and 500 responses, the proxy gateway-error pages, and every response of
the file backend — carry the `Server: Penguin v<version>` header; the
200-empty control replies to `POST /reload` and `POST /message` carry no
header at all (and proxied responses simply keep the upstream headers,
which is outside this model). -/
theorem server_header_coverage :
    ∀ (version msg html : String) (isTimeout : Bool) (fs : FileSys) (req : Request)
      (subpath fs_root : FsPath) (control_path : List Char) (r : Response),
      hasServerHeader version (bad_request version msg) = true ∧
      hasServerHeader version (not_found version) = true ∧
      hasServerHeader version (internal_server_error version msg) = true ∧
      hasServerHeader version (gateway_error version isTimeout html) = true ∧
      (serve version fs req subpath fs_root control_path = .ok r →
        hasServerHeader version r = true) ∧
      hasAnyServerHeader control_ok_response = false := by
  intro version msg html isTimeout fs req sub root cp r
  refine ⟨?_, ?_, ?_, ?_, fun h => serve_server_header _ _ _ _ _ _ _ h, rfl⟩
  · apply hasServerHeader_of_mem; simp [bad_request]
  · apply hasServerHeader_of_mem; simp [not_found]
  · apply hasServerHeader_of_mem; simp [internal_server_error]
  · apply hasServerHeader_of_mem; simp [gateway_error]

/-- C8 witness: a concrete file response of the backend carries the
header, and the concrete control reply does not. -/
theorem server_header_coverage_witness :
    serve "1.0" fsA reqA ["a.txt"] ["root"] [] = .ok fileRespA ∧
    hasServerHeader "1.0" fileRespA = true ∧
    hasAnyServerHeader control_ok_response = false :=
  ⟨by decide,
   (server_header_coverage "1.0" "" "" false fsA reqA ["a.txt"] ["root"] [] fileRespA).2.2.2.2.1
     (by decide),
   (server_header_coverage "1.0" "" "" false fsA reqA ["a.txt"] ["root"] [] fileRespA).2.2.2.2.2⟩

/-- C2: the file backend serves a request from the mount whose
`uri_path` is a prefix of the request path with the greatest length
(with the served subpath being the remainder with leading slashes
stripped); when no mount matches, `try_serve` declines and the router
falls through to the proxy when one is configured, else to 404. -/
theorem try_serve_most_specific :
    ∀ (path : List Char) (cfg : Config),
      (∀ subpath mount, try_serve path cfg.mounts = some (subpath, mount) →
        mount ∈ cfg.mounts ∧
        mount.uri_path.isPrefixOf path = true ∧
        (∀ m ∈ cfg.mounts, m.uri_path.isPrefixOf path = true →
          m.uri_path.length ≤ mount.uri_path.length) ∧
        subpath = (path.drop mount.uri_path.length).dropWhile (· = '/')) ∧
      ((∀ m ∈ cfg.mounts, m.uri_path.isPrefixOf path = false) →
        try_serve path cfg.mounts = none ∧
        (cfg.control_path.isPrefixOf path = false →
          handle_route cfg path =
            match cfg.proxy with
            | some t => .proxied t
            | none => .notFound404)) := by
  intro path cfg
  constructor
  · intro subpath mount h
    have hmem0 := foldl_max_mem _ _ _ _ h
    have hge := foldl_max_ge _ _ _ _ h
    rcases hmem0 with hmem | hnone
    swap
    · exact Option.noConfusion hnone
    rcases List.mem_filterMap.mp hmem with ⟨m, hm, hg⟩
    simp only [stripPre] at hg
    by_cases hp : m.uri_path.isPrefixOf path
    · rw [if_pos hp] at hg
      cases hg
      refine ⟨hm, hp, ?_, rfl⟩
      intro m' hm' hp'
      have hc : ((path.drop m'.uri_path.length).dropWhile (· = '/'), m')
          ∈ cfg.mounts.filterMap (fun mount =>
            (stripPre mount.uri_path path).map
              (fun subpath => (subpath.dropWhile (· = '/'), mount))) := by
        apply List.mem_filterMap.mpr
        exact ⟨m', hm', by simp [stripPre, hp']⟩
      exact hge.1 _ hc
    · rw [if_neg hp] at hg
      cases hg
  · intro hnone
    have hcands : cfg.mounts.filterMap (fun mount =>
        (stripPre mount.uri_path path).map
          (fun subpath => (subpath.dropWhile (· = '/'), mount))) = [] := by
      apply List.filterMap_eq_nil_iff.mpr
      intro m hm
      simp [stripPre, hnone m hm]
    have hts : try_serve path cfg.mounts = none := by
      unfold try_serve max_by_key
      rw [hcands]
      rfl
    refine ⟨hts, fun hctrl => ?_⟩
    unfold handle_route
    rw [hctrl]
    simp only [Bool.false_eq_true, if_false]
    rw [hts]

/-- C2 witness: for the request path `/a/b/x.txt` with mounts `/a` and
`/a/b`, the chosen mount is `/a/b` (the longest matching prefix) and the
subpath is `x.txt`. -/
theorem try_serve_most_specific_witness :
    mountB ∈ cfgC.mounts ∧
    mountB.uri_path.isPrefixOf "/a/b/x.txt".toList = true ∧
    (∀ m ∈ cfgC.mounts, m.uri_path.isPrefixOf "/a/b/x.txt".toList = true →
      m.uri_path.length ≤ mountB.uri_path.length) ∧
    "x.txt".toList =
      ("/a/b/x.txt".toList.drop mountB.uri_path.length).dropWhile (· = '/') :=
  (try_serve_most_specific "/a/b/x.txt".toList cfgC).1 "x.txt".toList mountB (by decide)

/-- C1: if the file backend returns a 2xx response then the
canonicalized resolved path (root joined with the subpath) starts with
the canonicalized root; and whenever both canonicalizations succeed but
the resolved path falls outside the root, the backend responds 400 with
body `Bad request: requested file outside of served directory`. -/
theorem serve_traversal_safety :
    ∀ (version : String) (fs : FileSys) (req : Request) (subpath fs_root : FsPath)
      (control_path : List Char),
      ((serve version fs req subpath fs_root control_path).is2xx = true →
        ∃ p r, fs.canon (fs_root ++ subpath) = .ok p ∧ fs.canon fs_root = .ok r ∧
          r.isPrefixOf p = true) ∧
      (∀ p r, fs.canon (fs_root ++ subpath) = .ok p → fs.canon fs_root = .ok r →
        r.isPrefixOf p = false →
        serve version fs req subpath fs_root control_path =
          .ok (bad_request version
            "Bad request: requested file outside of served directory\n")) := by
  intro version fs req sub root cp
  constructor
  · intro h2
    cases hc1 : fs.canon (root ++ sub) with
    | notFound =>
      simp [serve, hc1, Outcome.is2xx, not_found] at h2
    | otherErr =>
      simp [serve, hc1, Outcome.is2xx] at h2
    | ok creq =>
      cases hc2 : fs.canon root with
      | notFound =>
        simp [serve, hc1, hc2, Outcome.is2xx, not_found] at h2
      | otherErr =>
        simp [serve, hc1, hc2, Outcome.is2xx] at h2
      | ok croot =>
        cases hpre : croot.isPrefixOf creq with
        | true => exact ⟨creq, croot, rfl, rfl, hpre⟩
        | false =>
          simp [serve, hc1, hc2, hpre, Outcome.is2xx, bad_request] at h2
  · intro p r hp hr hnpre
    simp only [serve, hp, hr, hnpre, Bool.not_false, eq_self_iff_true, if_true]

/-- C1 witness: a concrete request whose resolved path canonicalizes to
`secret`, outside the canonical root `croot`, is answered with the
400 traversal response. -/
theorem serve_traversal_safety_witness :
    serve "1.0" fsB reqB ["..", "secret"] ["root"] [] =
      .ok (bad_request "1.0"
        "Bad request: requested file outside of served directory\n") :=
  (serve_traversal_safety "1.0" fsB reqB ["..", "secret"] ["root"] []).2
    ["secret"] ["croot"] (by decide) (by decide) (by decide)

/-- C4: evaluation of `serve_file` on a 100-byte non-HTML file for the
four `Range` header shapes. A syntactically invalid range hits the
`todo!()` of the source and panics (surfacing as a 500 through the
panic catcher) instead of answering 400 as the claim and the spec
demand; a non-overlapping range yields 416, several ranges yield the
400 multi-range reply, and a valid single range yields 206 with
`Content-Length` equal to the range length. -/
theorem serve_file_range_behavior :
    serve_file "1.0" fsR ["f.bin"] ⟨"/f.bin".toList, some "bytes=garbage".toList⟩ []
      = .panicked "not yet implemented" ∧
    serve_file "1.0" fsR ["f.bin"] ⟨"/f.bin".toList, some "bytes=200-300".toList⟩ []
      = .ok { status := 416
              headers := [("Server", "Penguin v1.0")]
              body := "" } ∧
    serve_file "1.0" fsR ["f.bin"] ⟨"/f.bin".toList, some "bytes=0-1,5-6".toList⟩ []
      = .ok { status := 400
              headers := [("Server", "Penguin v1.0")]
              body := multiRangeBody } ∧
    serve_file "1.0" fsR ["f.bin"] ⟨"/f.bin".toList, some "bytes=10-19".toList⟩ []
      = .ok { status := 206
              headers := [("Server", "Penguin v1.0"), ("Accept-Ranges", "bytes"),
                          ("Content-Type", "application/octet-stream"),
                          ("Content-Length", "10"),
                          ("Content-Range", "bytes 10-20/100")]
              body := "" } := by
  refine ⟨by decide, by decide, by decide, by decide⟩

/-- `lastN` of a nonempty list is never `none`. -/
theorem lastN_ne_none : ∀ (x : Nat) (xs : List Nat), lastN (x :: xs) ≠ none := by
  intro x xs
  induction xs generalizing x with
  | nil => simp [lastN]
  | cons y ys ih => simpa [lastN] using ih y

/-- `lastN` skips the head of a list with at least two elements. -/
theorem lastN_cons (x y : Nat) (ys : List Nat) :
    lastN (x :: y :: ys) = lastN (y :: ys) := rfl

/-- `lastN` commutes with shifting every element by one. -/
theorem lastN_map_succ : ∀ (xs : List Nat),
    lastN (xs.map (· + 1)) = (lastN xs).map (· + 1) := by
  intro xs
  induction xs with
  | nil => rfl
  | cons x xs ih =>
    cases xs with
    | nil => rfl
    | cons y ys => simpa [lastN_cons] using ih

/-- The element `lastN` returns is in the list. -/
theorem lastN_mem : ∀ (xs : List Nat) (a : Nat), lastN xs = some a → a ∈ xs := by
  intro xs
  induction xs with
  | nil => intro a h; cases h
  | cons x ys ih =>
    intro a h
    cases ys with
    | nil =>
      cases h
      simp
    | cons y ys2 =>
      rw [lastN_cons] at h
      exact List.mem_cons_of_mem _ (ih a h)

/-- A suffix starting with `</body>` cannot also start with `<!--`. -/
theorem body_excludes_comment_open (l : List Char)
    (h : ("</body>".toList).isPrefixOf l = true) :
    ("<!--".toList).isPrefixOf l = false := by
  cases hcon : ("<!--".toList).isPrefixOf l with
  | false => rfl
  | true =>
    have h1 : "</body>".toList <+: l := List.isPrefixOf_iff_prefix.mp h
    have h2 : "<!--".toList <+: l := List.isPrefixOf_iff_prefix.mp hcon
    have h3 : "<!--".toList <+: "</body>".toList :=
      List.prefix_of_prefix_length_le h2 h1 (by decide)
    have h4 : ("<!--".toList).isPrefixOf ("</body>".toList) = true :=
      List.isPrefixOf_iff_prefix.mpr h3
    exact absurd h4 (by decide)

/-- At a suffix starting with a (non-commented) `</body>`, the comment
state does not change. -/
theorem comment_step_of_body (l : List Char)
    (h : ("</body>".toList).isPrefixOf l = true) :
    inject.comment_step l false = false := by
  unfold inject.comment_step
  rw [body_excludes_comment_open l h]
  simp

/-- Shifting all recorded indices by one matches bumping the running
offset of the scanner by one. -/
theorem match_shift (idxs : List Nat) (i : Nat) (found : Option Nat) :
    (match lastN (idxs.map (· + 1)) with
     | some j => some (i + j)
     | none => found) =
    (match lastN idxs with
     | some j => some (i + 1 + j)
     | none => found) := by
  rw [lastN_map_succ]
  cases lastN idxs with
  | none => rfl
  | some m =>
    show some (i + (m + 1)) = some (i + 1 + m)
    exact congrArg some (by omega)

/-- The scanner loop of `inject::into` returns the last recorded
occurrence index (offset by the running index `i`), or the incoming
`found` value when the suffix holds no further occurrence. -/
theorem scanBody_eq (l : List Char) :
    ∀ (s : Bool) (i : Nat) (found : Option Nat),
      inject.scanBody l s i found =
        match lastN (inject.bodyIdxs l s) with
        | some j => some (i + j)
        | none => found := by
  induction l with
  | nil => intro s i found; rfl
  | cons c rest ih =>
    intro s i found
    by_cases hb1 : ((!s) && ("</body>".toList).isPrefixOf (c :: rest)) = true
    · have hs : s = false := by
        cases s
        · rfl
        · simp at hb1
      subst hs
      have hbody : ("</body>".toList).isPrefixOf (c :: rest) = true := by
        simpa using hb1
      have hstep : inject.comment_step (c :: rest) false = false :=
        comment_step_of_body _ hbody
      simp only [inject.scanBody, inject.bodyIdxs, hb1, if_pos, hstep, ih]
      rcases hq : inject.bodyIdxs rest false with _ | ⟨y, ys⟩
      · simp [lastN]
      · rw [List.singleton_append, List.map_cons]
        cases hlast : lastN (y :: ys) with
        | none => exact absurd hlast (lastN_ne_none _ _)
        | some m =>
          have h5 := lastN_map_succ (y :: ys)
          rw [List.map_cons, hlast] at h5
          simp only [Option.map_some'] at h5
          have h6 : lastN (0 :: (y + 1) :: List.map (fun x => x + 1) ys) =
              lastN ((y + 1) :: List.map (fun x => x + 1) ys) := rfl
          rw [h6, h5]
          exact congrArg some (by omega)
    · have hstep : inject.comment_step (c :: rest) s =
          (if ((!s) && ("<!--".toList).isPrefixOf (c :: rest)) = true then true
           else if (s && ("-->".toList).isPrefixOf (c :: rest)) = true then false
           else s) := rfl
      by_cases hb2 : ((!s) && ("<!--".toList).isPrefixOf (c :: rest)) = true
      · simp only [inject.scanBody, inject.bodyIdxs, hb1, hb2, if_pos, if_neg,
          Bool.false_eq_true, if_false, ih, hstep, if_true, List.nil_append]
        exact (match_shift _ _ _).symm
      · by_cases hb3 : (s && ("-->".toList).isPrefixOf (c :: rest)) = true
        · simp only [inject.scanBody, inject.bodyIdxs, hb1, hb2, hb3, if_pos, if_neg,
            Bool.false_eq_true, if_false, ih, hstep, if_true, List.nil_append]
          exact (match_shift _ _ _).symm
        · simp only [inject.scanBody, inject.bodyIdxs, hb1, hb2, hb3, if_neg,
            Bool.false_eq_true, if_false, ih, hstep, List.nil_append]
          exact (match_shift _ _ _).symm

/-- Membership in `bodyIdxs` is exactly the specification predicate:
the comment state at the index is clear and a `</body>` starts there. -/
theorem mem_bodyIdxs (l : List Char) :
    ∀ (s : Bool) (j : Nat),
      j ∈ inject.bodyIdxs l s ↔
        (inject.cstate l s j = false ∧
          ("</body>".toList).isPrefixOf (l.drop j) = true) := by
  induction l with
  | nil =>
    intro s j
    constructor
    · intro h; simp [inject.bodyIdxs] at h
    · rintro ⟨h1, h2⟩
      rw [List.drop_nil] at h2
      exact absurd h2 (by decide)
  | cons c rest ih =>
    intro s j
    cases j with
    | zero =>
      have hc0 : inject.cstate (c :: rest) s 0 = s := rfl
      simp only [inject.bodyIdxs, List.drop_zero, hc0]
      constructor
      · intro h
        rcases List.mem_append.mp h with h | h
        · by_cases hb : ((!s) && ("</body>".toList).isPrefixOf (c :: rest)) = true
          · have hs : s = false := by
              cases s
              · rfl
              · simp at hb
            have hbody : ("</body>".toList).isPrefixOf (c :: rest) = true := by
              rw [hs] at hb; simpa using hb
            exact ⟨hs, hbody⟩
          · rw [if_neg hb] at h; simp at h
        · rw [List.mem_map] at h
          obtain ⟨a, -, ha⟩ := h
          omega
      · rintro ⟨h1, h2⟩
        apply List.mem_append.mpr
        left
        have hb : ((!s) && ("</body>".toList).isPrefixOf (c :: rest)) = true := by
          rw [h1]; simpa using h2
        rw [if_pos hb]
        simp
    | succ j' =>
      have hdrop : (c :: rest).drop (j' + 1) = rest.drop j' := rfl
      have hstate : inject.cstate (c :: rest) s (j' + 1) =
          inject.cstate rest (inject.comment_step (c :: rest) s) j' := rfl
      simp only [inject.bodyIdxs, hdrop, hstate]
      constructor
      · intro h
        rcases List.mem_append.mp h with h | h
        · by_cases hb : ((!s) && ("</body>".toList).isPrefixOf (c :: rest)) = true
          · rw [if_pos hb] at h; simp at h
          · rw [if_neg hb] at h; simp at h
        · rw [List.mem_map] at h
          obtain ⟨a, ha, hae⟩ := h
          have haj : a = j' := by omega
          rw [← haj]
          exact (ih _ a).mp ha
      · intro hrhs
        apply List.mem_append.mpr
        right
        rw [List.mem_map]
        exact ⟨j', (ih _ j').mpr hrhs, rfl⟩

/-- Every recorded occurrence index is at most the last one. -/
theorem bodyIdxs_le_lastN (l : List Char) :
    ∀ (s : Bool) (j m : Nat), j ∈ inject.bodyIdxs l s →
      lastN (inject.bodyIdxs l s) = some m → j ≤ m := by
  induction l with
  | nil => intro s j m hj _; simp [inject.bodyIdxs] at hj
  | cons c rest ih =>
    intro s j m hj hm
    simp only [inject.bodyIdxs] at hj hm
    rcases hq : inject.bodyIdxs rest (inject.comment_step (c :: rest) s) with _ | ⟨y, ys⟩
    · rw [hq] at hj hm
      by_cases hb : ((!s) && ("</body>".toList).isPrefixOf (c :: rest)) = true
      · rw [if_pos hb] at hj hm
        simp only [List.map_nil, List.append_nil] at hj hm
        have hj0 : j = 0 := by simpa using hj
        have hm0 : m = 0 := by
          have : lastN [0] = some 0 := rfl
          rw [this] at hm
          exact (Option.some_injective _ hm.symm)
        omega
      · rw [if_neg hb] at hj
        simp at hj
    · rw [hq] at hj hm
      have hm2 : lastN ((y + 1) :: List.map (fun x => x + 1) ys) = some m := by
        by_cases hb : ((!s) && ("</body>".toList).isPrefixOf (c :: rest)) = true
        · rw [if_pos hb, List.map_cons, List.singleton_append, lastN_cons] at hm
          exact hm
        · rw [if_neg hb, List.nil_append, List.map_cons] at hm
          exact hm
      have h5 := lastN_map_succ (y :: ys)
      rw [List.map_cons, hm2] at h5
      cases hlast : lastN (y :: ys) with
      | none => exact absurd hlast (lastN_ne_none _ _)
      | some m' =>
        rw [hlast] at h5
        have hmm : m = m' + 1 := by
          simp only [Option.map_some'] at h5
          exact Option.some_injective _ h5
        rcases List.mem_append.mp hj with h | h
        · have hj0 : j = 0 := by
            by_cases hb : ((!s) && ("</body>".toList).isPrefixOf (c :: rest)) = true
            · rw [if_pos hb] at h; simpa using h
            · rw [if_neg hb] at h; simp at h
          omega
        · rw [List.mem_map] at h
          obtain ⟨a, ha, hae⟩ := h
          have := ih _ a m' (by rw [hq]; exact ha) (by rw [hq]; exact hlast)
          omega

/-- A non-commented `</body>` occurrence lies strictly inside the
input. -/
theorem nonCommentedBodyAt_lt_length {input : List Char} {j : Nat}
    (h : inject.nonCommentedBodyAt input j) : j < input.length := by
  obtain ⟨-, h2⟩ := h
  have hp := List.isPrefixOf_iff_prefix.mp h2
  have hlen := hp.length_le
  rw [List.length_drop] at hlen
  have h7 : ("</body>".toList).length = 7 := by decide
  omega

/-- C3: the injector output is a pure insertion of the script tag into
the input: when `i` is the last index carrying a `</body>` outside of
HTML comments, the output is `input[..i] ++ tag ++ input[i..]`; when
there is no such index, the tag is appended at the very end. -/
theorem inject_into_characterization :
    ∀ (input control_path : List Char),
      (∀ i, (inject.nonCommentedBodyAt input i ∧
            ∀ j, j < input.length → inject.nonCommentedBodyAt input j → j ≤ i) →
        inject.into input control_path =
          input.take i ++ inject.script_tag control_path ++ input.drop i) ∧
      ((∀ j, j < input.length → ¬ inject.nonCommentedBodyAt input j) →
        inject.into input control_path = input ++ inject.script_tag control_path) := by
  intro input cp
  constructor
  · rintro i ⟨hnc, hmax⟩
    have hmem : i ∈ inject.bodyIdxs input false := (mem_bodyIdxs input false i).mpr hnc
    cases hlast : lastN (inject.bodyIdxs input false) with
    | none =>
      rcases hq : inject.bodyIdxs input false with _ | ⟨y, ys⟩
      · rw [hq] at hmem; simp at hmem
      · rw [hq] at hlast; exact absurd hlast (lastN_ne_none _ _)
    | some m =>
      have hm_mem : m ∈ inject.bodyIdxs input false := lastN_mem _ _ hlast
      have hm_nc : inject.nonCommentedBodyAt input m :=
        (mem_bodyIdxs input false m).mp hm_mem
      have h1 : i ≤ m := bodyIdxs_le_lastN input false i m hmem hlast
      have h2 : m ≤ i := hmax m (nonCommentedBodyAt_lt_length hm_nc) hm_nc
      have him : m = i := le_antisymm h2 h1
      subst him
      have hscan := scanBody_eq input false 0 none
      rw [hlast] at hscan
      simp only [inject.into, hscan, Option.getD_some, Nat.zero_add]
  · intro h
    have hempty : inject.bodyIdxs input false = [] := by
      rcases hq : inject.bodyIdxs input false with _ | ⟨y, ys⟩
      · rfl
      · have hy : y ∈ inject.bodyIdxs input false := by
          rw [hq]; exact List.mem_cons_self _ _
        have hnc := (mem_bodyIdxs input false y).mp hy
        exact absurd hnc (h y (nonCommentedBodyAt_lt_length hnc))
    have hscan := scanBody_eq input false 0 none
    rw [hempty] at hscan
    simp only [lastN] at hscan
    simp only [inject.into, hscan, Option.getD_none, List.take_length,
      List.drop_length, List.append_nil]

/-- C3 witness: for `<body>hi</body></html>` the tag is inserted at
index 8, right before the (only) non-commented `</body>`. -/
theorem inject_into_characterization_witness :
    inject.into "<body>hi</body></html>".toList "/p".toList =
      ("<body>hi</body></html>".toList).take 8 ++ inject.script_tag "/p".toList ++
        ("<body>hi</body></html>".toList).drop 8 :=
  (inject_into_characterization "<body>hi</body></html>".toList "/p".toList).1 8
    ⟨by decide, by decide⟩

/-- C6 counterexample: for the header `script-src *; connect-src abc`
the input does not yet permit both (connects are restricted), so the
rewriter modifies it; but the rewritten output has a `script-src`
directive equal to `*` only — it does not contain `(sq)self(sq)` as the
claim states (the `*` case is left untouched), and the serialization
ends with a trailing `; ` rather than being `; `-joined. -/
theorem rewrite_csp_star_not_self :
    csp_permits_both ("script-src *; connect-src abc".toList) = false ∧
    rewrite_csp ("script-src *; connect-src abc".toList) =
      some ("connect-src abc ".toList ++ SELF ++ "; script-src *; ".toList) ∧
    map_lookup script_src
      (parse_policy_spec ("connect-src abc ".toList ++ SELF ++ "; script-src *; ".toList))
      = some [STAR] ∧
    SELF ∉ [STAR] := by
  refine ⟨by decide, by decide, by decide, by decide⟩

/-- Unfolding equation for `strLt` on two nonempty strings. -/
theorem strLt_cons (c d : Char) (cs ds : List Char) :
    strLt (c :: cs) (d :: ds) = if c = d then strLt cs ds else decide (c < d) := rfl

/-- `strLt` is irreflexive. -/
theorem strLt_irrefl : ∀ (a : List Char), strLt a a = false := by
  intro a
  induction a with
  | nil => rfl
  | cons c cs ih =>
    rw [strLt_cons, if_pos rfl]
    exact ih

/-- `strLt` implies inequality. -/
theorem strLt_ne {a b : List Char} (h : strLt a b = true) : a ≠ b := by
  intro he
  subst he
  rw [strLt_irrefl] at h
  cases h

/-- `strLt` is asymmetric. -/
theorem strLt_asymm : ∀ (a b : List Char), strLt a b = true → strLt b a = false := by
  intro a
  induction a with
  | nil =>
    intro b h
    cases b with
    | nil => cases h
    | cons d ds => rfl
  | cons c cs ih =>
    intro b h
    cases b with
    | nil => cases h
    | cons d ds =>
      by_cases hcd : c = d
      · subst hcd
        rw [strLt_cons, if_pos rfl] at h
        rw [strLt_cons, if_pos rfl]
        exact ih ds h
      · rw [strLt_cons, if_neg hcd] at h
        have hlt : c < d := of_decide_eq_true h
        have hdc : ¬ d = c := fun he => hcd he.symm
        rw [strLt_cons, if_neg hdc]
        exact decide_eq_false (lt_asymm hlt)

/-- `strLt` is transitive. -/
theorem strLt_trans : ∀ (a b c : List Char),
    strLt a b = true → strLt b c = true → strLt a c = true := by
  intro a
  induction a with
  | nil =>
    intro b c hab hbc
    cases b with
    | nil => cases hab
    | cons d ds =>
      cases c with
      | nil => cases hbc
      | cons e es => rfl
  | cons x xs ih =>
    intro b c hab hbc
    cases b with
    | nil => cases hab
    | cons d ds =>
      cases c with
      | nil => cases hbc
      | cons e es =>
        by_cases hxd : x = d
        · subst hxd
          rw [strLt_cons, if_pos rfl] at hab
          by_cases hxe : x = e
          · subst hxe
            rw [strLt_cons, if_pos rfl] at hbc ⊢
            exact ih ds es hab hbc
          · rw [strLt_cons, if_neg hxe] at hbc ⊢
            exact hbc
        · rw [strLt_cons, if_neg hxd] at hab
          have hab2 : x < d := of_decide_eq_true hab
          by_cases hde : d = e
          · subst hde
            rw [strLt_cons, if_neg hxd]
            exact decide_eq_true hab2
          · rw [strLt_cons, if_neg hde] at hbc
            have hbc2 : d < e := of_decide_eq_true hbc
            have hxe2 : x < e := lt_trans hab2 hbc2
            by_cases hxe : x = e
            · subst hxe
              exact absurd hxe2 (lt_irrefl x)
            · rw [strLt_cons, if_neg hxe]
              exact decide_eq_true hxe2

/-- `strLt` is total on distinct strings. -/
theorem strLt_total : ∀ (a b : List Char),
    a = b ∨ strLt a b = true ∨ strLt b a = true := by
  intro a
  induction a with
  | nil =>
    intro b
    cases b with
    | nil => exact Or.inl rfl
    | cons d ds => exact Or.inr (Or.inl rfl)
  | cons x xs ih =>
    intro b
    cases b with
    | nil => exact Or.inr (Or.inr rfl)
    | cons d ds =>
      by_cases hxd : x = d
      · subst hxd
        rcases ih ds with he | hl | hg
        · exact Or.inl (by rw [he])
        · refine Or.inr (Or.inl ?_)
          rw [strLt_cons, if_pos rfl]
          exact hl
        · refine Or.inr (Or.inr ?_)
          rw [strLt_cons, if_pos rfl]
          exact hg
      · rcases lt_trichotomy x d with h | h | h
        · refine Or.inr (Or.inl ?_)
          rw [strLt_cons, if_neg hxd]
          exact decide_eq_true h
        · exact absurd h hxd
        · refine Or.inr (Or.inr ?_)
          have hdx : ¬ d = x := fun he => hxd he.symm
          rw [strLt_cons, if_neg hdx]
          exact decide_eq_true h

/-- Unfolding equation for `splitOnC` on a non-separator head. -/
theorem splitOnC_cons_ne (sep c : Char) (l : List Char) (h : ¬ c = sep) :
    splitOnC sep (c :: l) =
      match splitOnC sep l with
      | [] => [[c]]
      | t :: ts => (c :: t) :: ts := by
  simp [splitOnC, h]

/-- `splitOnC` never returns an empty part list. -/
theorem splitOnC_ne_nil (sep : Char) : ∀ (l : List Char), splitOnC sep l ≠ [] := by
  intro l
  induction l with
  | nil => simp [splitOnC]
  | cons c rest _ =>
    by_cases h : c = sep
    · simp [splitOnC, h]
    · rw [splitOnC_cons_ne sep c rest h]
      cases hq : splitOnC sep rest with
      | nil => simp
      | cons t ts => simp

/-- Splitting a list that starts with the separator. -/
theorem splitOnC_sep_cons (sep : Char) (l : List Char) :
    splitOnC sep (sep :: l) = [] :: splitOnC sep l := by
  simp [splitOnC]

/-- Splitting after a separator-free prefix prepends the prefix to the
first part. -/
theorem splitOnC_append (sep : Char) : ∀ (xs ys : List Char), sep ∉ xs →
    splitOnC sep (xs ++ ys) = (splitOnC sep ys).modifyHead (xs ++ ·) := by
  intro xs
  induction xs with
  | nil =>
    intro ys _
    cases hq : splitOnC sep ys with
    | nil => simp [List.modifyHead, hq]
    | cons t ts => simp [List.modifyHead, hq]
  | cons c cs ih =>
    intro ys h
    have hc : ¬ c = sep := fun he => h (by simp [he])
    have hcs : sep ∉ cs := fun hm => h (List.mem_cons_of_mem _ hm)
    rw [List.cons_append, splitOnC_cons_ne sep c (cs ++ ys) hc, ih ys hcs]
    cases hq : splitOnC sep ys with
    | nil => exact absurd hq (splitOnC_ne_nil sep ys)
    | cons t ts => simp [List.modifyHead]

/-- No part of `splitOnC` contains the separator. -/
theorem mem_splitOnC_not_sep (sep : Char) :
    ∀ (l p : List Char), p ∈ splitOnC sep l → sep ∉ p := by
  intro l
  induction l with
  | nil =>
    intro p hp
    simp [splitOnC] at hp
    subst hp
    simp
  | cons c rest ih =>
    intro p hp
    by_cases hc : c = sep
    · subst hc
      rw [splitOnC_sep_cons] at hp
      rcases List.mem_cons.mp hp with rfl | hp2
      · simp
      · exact ih p hp2
    · rw [splitOnC_cons_ne sep c rest hc] at hp
      cases hq : splitOnC sep rest with
      | nil => exact absurd hq (splitOnC_ne_nil sep rest)
      | cons t ts =>
        rw [hq] at hp
        rcases List.mem_cons.mp hp with rfl | hp2
        · intro hmem
          rcases List.mem_cons.mp hmem with he | hmem2
          · exact hc he.symm
          · exact ih t (by rw [hq]; exact List.mem_cons_self _ _) hmem2
        · exact ih p (by rw [hq]; exact List.mem_cons_of_mem _ hp2)

/-- Unfolding equation for `splitWsAux`. -/
theorem splitWsAux_cons (c : Char) (rest acc : List Char) :
    splitWsAux (c :: rest) acc =
      if isWsC c = true then
        if acc.isEmpty = true then splitWsAux rest []
        else acc.reverse :: splitWsAux rest []
      else splitWsAux rest (c :: acc) := rfl

/-- Splitting an all-whitespace list flushes the accumulator only. -/
theorem splitWsAux_all_ws : ∀ (w acc : List Char), (∀ c ∈ w, isWsC c = true) →
    splitWsAux w acc = if acc.isEmpty = true then [] else [acc.reverse] := by
  intro w
  induction w with
  | nil => intro acc _; rfl
  | cons c rest ih =>
    intro acc hw
    have hc : isWsC c = true := hw c (List.mem_cons_self _ _)
    have hrest : ∀ x ∈ rest, isWsC x = true := fun x hx => hw x (List.mem_cons_of_mem _ hx)
    have h0 : splitWsAux rest [] = [] := by rw [ih [] hrest]; rfl
    rw [splitWsAux_cons, if_pos hc, h0]

/-- Trailing whitespace does not change the splitting. -/
theorem splitWsAux_append_ws : ∀ (l w acc : List Char), (∀ c ∈ w, isWsC c = true) →
    splitWsAux (l ++ w) acc = splitWsAux l acc := by
  intro l
  induction l with
  | nil =>
    intro w acc hw
    rw [List.nil_append, splitWsAux_all_ws w acc hw]
    rfl
  | cons c rest ih =>
    intro w acc hw
    rw [List.cons_append, splitWsAux_cons, splitWsAux_cons]
    by_cases hc : isWsC c = true
    · rw [if_pos hc, if_pos hc, ih w [] hw]
    · rw [if_neg hc, if_neg hc, ih w (c :: acc) hw]

/-- A leading whitespace character does not change the splitting. -/
theorem splitWs_ws_cons (c : Char) (l : List Char) (h : isWsC c = true) :
    splitWs (c :: l) = splitWs l := by
  unfold splitWs
  rw [splitWsAux_cons, if_pos h]
  rfl

/-- A leading all-whitespace prefix does not change the splitting. -/
theorem splitWs_ws_append : ∀ (w l : List Char), (∀ c ∈ w, isWsC c = true) →
    splitWs (w ++ l) = splitWs l := by
  intro w
  induction w with
  | nil => intro l _; rfl
  | cons c cs ih =>
    intro l hw
    rw [List.cons_append, splitWs_ws_cons _ _ (hw c (List.mem_cons_self _ _))]
    exact ih l (fun x hx => hw x (List.mem_cons_of_mem _ hx))

/-- Reading a whitespace-free chunk moves it (reversed) into the
accumulator. -/
theorem splitWsAux_token : ∀ (tok rest acc : List Char), (∀ c ∈ tok, isWsC c = false) →
    splitWsAux (tok ++ rest) acc = splitWsAux rest (tok.reverse ++ acc) := by
  intro tok
  induction tok with
  | nil => intro rest acc _; rfl
  | cons c cs ih =>
    intro rest acc h
    have hc : isWsC c = false := h c (List.mem_cons_self _ _)
    rw [List.cons_append, splitWsAux_cons,
      if_neg (by rw [hc]; exact Bool.false_ne_true)]
    rw [ih rest (c :: acc) (fun x hx => h x (List.mem_cons_of_mem _ hx))]
    congr 1
    simp

/-- A nonempty list has a nonempty reverse. -/
theorem reverse_isEmpty_false {tok : List Char} (hne : tok ≠ []) :
    tok.reverse.isEmpty = false := by
  cases htok : tok.reverse with
  | nil => exact absurd (List.reverse_eq_nil_iff.mp htok) hne
  | cons a as => rfl

/-- Splitting a token followed by nothing or by whitespace yields the
token and the splitting of the rest. -/
theorem splitWs_token (tok rest : List Char) (hne : tok ≠ [])
    (hnw : ∀ c ∈ tok, isWsC c = false)
    (hrest : rest = [] ∨ ∃ c rest2, rest = c :: rest2 ∧ isWsC c = true) :
    splitWs (tok ++ rest) = tok :: splitWs rest := by
  show splitWsAux (tok ++ rest) [] = tok :: splitWs rest
  rw [splitWsAux_token tok rest [] hnw, List.append_nil]
  rcases hrest with rfl | ⟨c, rest2, rfl, hc⟩
  · show (if tok.reverse.isEmpty = true then [] else [tok.reverse.reverse]) =
      tok :: splitWs []
    rw [reverse_isEmpty_false hne]
    simp [splitWs, splitWsAux]
  · rw [splitWsAux_cons, if_pos hc, reverse_isEmpty_false hne]
    rw [splitWs_ws_cons _ _ hc]
    simp [splitWs]

/-- Every token `splitWsAux` emits is nonempty, whitespace-free, and
made of characters of the input or the accumulator. -/
theorem splitWsAux_tokens : ∀ (l acc : List Char), (∀ c ∈ acc, isWsC c = false) →
    ∀ t ∈ splitWsAux l acc, t ≠ [] ∧ ∀ c ∈ t, isWsC c = false ∧ (c ∈ l ∨ c ∈ acc) := by
  intro l
  induction l with
  | nil =>
    intro acc hacc t ht
    cases hae : acc.isEmpty with
    | true =>
      exfalso
      have : splitWsAux [] acc = [] := by
        show (if acc.isEmpty = true then [] else [acc.reverse]) = []
        rw [hae]
        rfl
      rw [this] at ht
      simp at ht
    | false =>
      have : splitWsAux [] acc = [acc.reverse] := by
        show (if acc.isEmpty = true then [] else [acc.reverse]) = [acc.reverse]
        rw [hae]
        rfl
      rw [this] at ht
      have htr : t = acc.reverse := by simpa using ht
      subst htr
      refine ⟨?_, fun c hc => ?_⟩
      · intro he
        rw [List.reverse_eq_nil_iff] at he
        rw [he] at hae
        cases hae
      · rw [List.mem_reverse] at hc
        exact ⟨hacc c hc, Or.inr hc⟩
  | cons c rest ih =>
    intro acc hacc t ht
    rw [splitWsAux_cons] at ht
    by_cases hc : isWsC c = true
    · rw [if_pos hc] at ht
      by_cases hae : acc.isEmpty = true
      · rw [if_pos hae] at ht
        have := ih [] (by simp) t ht
        refine ⟨this.1, fun x hx => ⟨(this.2 x hx).1, ?_⟩⟩
        rcases (this.2 x hx).2 with h | h
        · exact Or.inl (List.mem_cons_of_mem _ h)
        · simp at h
      · rw [if_neg hae] at ht
        rcases List.mem_cons.mp ht with rfl | ht2
        · refine ⟨?_, fun x hx => ?_⟩
          · intro he
            rw [List.reverse_eq_nil_iff] at he
            rw [he] at hae
            exact hae rfl
          · rw [List.mem_reverse] at hx
            exact ⟨hacc x hx, Or.inr hx⟩
        · have := ih [] (by simp) t ht2
          refine ⟨this.1, fun x hx => ⟨(this.2 x hx).1, ?_⟩⟩
          rcases (this.2 x hx).2 with h | h
          · exact Or.inl (List.mem_cons_of_mem _ h)
          · simp at h
    · rw [if_neg hc] at ht
      have hacc2 : ∀ x ∈ c :: acc, isWsC x = false := by
        intro x hx
        rcases List.mem_cons.mp hx with rfl | hx2
        · exact Bool.eq_false_iff.mpr hc
        · exact hacc x hx2
      have := ih (c :: acc) hacc2 t ht
      refine ⟨this.1, fun x hx => ⟨(this.2 x hx).1, ?_⟩⟩
      rcases (this.2 x hx).2 with h | h
      · exact Or.inl (List.mem_cons_of_mem _ h)
      · rcases List.mem_cons.mp h with rfl | h2
        · exact Or.inl (List.mem_cons_self _ _)
        · exact Or.inr h2

/-- Every token of `splitWs` is nonempty, whitespace-free, and made of
input characters. -/
theorem splitWs_tokens (l : List Char) :
    ∀ t ∈ splitWs l, t ≠ [] ∧ ∀ c ∈ t, isWsC c = false ∧ c ∈ l := by
  intro t ht
  have h := splitWsAux_tokens l [] (by simp) t ht
  refine ⟨h.1, fun c hc => ⟨(h.2 c hc).1, ?_⟩⟩
  rcases (h.2 c hc).2 with h2 | h2
  · exact h2
  · simp at h2

/-- Dropping leading whitespace does not change the splitting. -/
theorem splitWs_dropWhile : ∀ (l : List Char),
    splitWs (l.dropWhile isWsC) = splitWs l := by
  intro l
  induction l with
  | nil => rfl
  | cons c rest ih =>
    by_cases hc : isWsC c = true
    · rw [List.dropWhile_cons, if_pos hc, splitWs_ws_cons c rest hc]
      exact ih
    · rw [List.dropWhile_cons, if_neg hc]

/-- Dropping trailing whitespace does not change the splitting. -/
theorem splitWs_dropTrailing (x : List Char) :
    splitWs ((x.reverse.dropWhile isWsC).reverse) = splitWs x := by
  have h1 : x = (x.reverse.dropWhile isWsC).reverse ++ (x.reverse.takeWhile isWsC).reverse := by
    rw [← List.reverse_append, List.takeWhile_append_dropWhile, List.reverse_reverse]
  have hw : ∀ c ∈ (x.reverse.takeWhile isWsC).reverse, isWsC c = true := by
    intro c hc
    rw [List.mem_reverse] at hc
    exact List.mem_takeWhile_imp hc
  conv_rhs => rw [h1]
  show splitWsAux _ [] = splitWsAux _ []
  rw [splitWsAux_append_ws _ _ [] hw]

/-- `str::trim` does not change the result of `split_whitespace`. -/
theorem splitWs_trimC (l : List Char) : splitWs (trimC l) = splitWs l := by
  unfold trimC
  rw [splitWs_dropTrailing, splitWs_dropWhile]

/-- The characters of the trimmed list are characters of the list. -/
theorem trimC_subset (l : List Char) : ∀ c ∈ trimC l, c ∈ l := by
  intro c hc
  unfold trimC at hc
  rw [List.mem_reverse] at hc
  have h1 := (List.dropWhile_sublist (l := (l.dropWhile isWsC).reverse) (p := isWsC)).subset hc
  rw [List.mem_reverse] at h1
  exact (List.dropWhile_sublist (l := l) (p := isWsC)).subset h1

/-- `sc` is the semicolon. -/
theorem sc_eq_semi : sc = (Char.ofNat 59) := rfl

/-- `asciiLower` on a non-uppercase character is the identity. -/
theorem asciiLower_eq_self {c : Char} (h : ¬(65 ≤ c.toNat ∧ c.toNat ≤ 90)) :
    asciiLower c = c := by
  unfold asciiLower
  rw [if_neg]
  intro hb
  rw [Bool.and_eq_true, decide_eq_true_eq, decide_eq_true_eq] at hb
  exact h hb

/-- `asciiLower` on an uppercase character adds 32 to the code. -/
theorem asciiLower_toNat_upper {c : Char} (h1 : 65 ≤ c.toNat) (h2 : c.toNat ≤ 90) :
    (asciiLower c).toNat = c.toNat + 32 := by
  unfold asciiLower
  rw [if_pos]
  swap
  · rw [Bool.and_eq_true, decide_eq_true_eq, decide_eq_true_eq]
    exact ⟨h1, h2⟩
  · have hn2 : c.toNat ≤ 90 := h2
    have hn1 : 65 ≤ c.toNat := h1
    set n := c.toNat with hn
    clear_value n
    interval_cases n <;> decide

/-- A character with code at least 97 is not whitespace. -/
theorem isWsC_false_of_ge {d : Char} (h : 97 ≤ d.toNat) : isWsC d = false := by
  unfold isWsC
  have h9 : (d.toNat == 9) = false := by simp; omega
  have h10 : (d.toNat == 10) = false := by simp; omega
  have h11 : (d.toNat == 11) = false := by simp; omega
  have h12 : (d.toNat == 12) = false := by simp; omega
  have h13 : (d.toNat == 13) = false := by simp; omega
  have h32 : (d.toNat == 32) = false := by simp; omega
  rw [h9, h10, h11, h12, h13, h32]
  rfl

/-- `asciiLower` preserves the whitespace-test. -/
theorem isWsC_asciiLower (c : Char) : isWsC (asciiLower c) = isWsC c := by
  by_cases h : 65 ≤ c.toNat ∧ c.toNat ≤ 90
  · have hlo := asciiLower_toNat_upper h.1 h.2
    have hge : 97 ≤ (asciiLower c).toNat := by omega
    rw [isWsC_false_of_ge hge]
    unfold isWsC
    have h9 : (c.toNat == 9) = false := by simp; omega
    have h10 : (c.toNat == 10) = false := by simp; omega
    have h11 : (c.toNat == 11) = false := by simp; omega
    have h12 : (c.toNat == 12) = false := by simp; omega
    have h13 : (c.toNat == 13) = false := by simp; omega
    have h32 : (c.toNat == 32) = false := by simp; omega
    rw [h9, h10, h11, h12, h13, h32]
    rfl
  · rw [asciiLower_eq_self h]

/-- `asciiLower` never produces a semicolon from a non-semicolon. -/
theorem asciiLower_ne_semi {c : Char} (h : c ≠ sc) : asciiLower c ≠ sc := by
  by_cases hu : 65 ≤ c.toNat ∧ c.toNat ≤ 90
  · have hlo := asciiLower_toNat_upper hu.1 hu.2
    intro he
    have : (asciiLower c).toNat = 59 := by rw [he]; rfl
    omega
  · rw [asciiLower_eq_self hu]
    exact h

/-- `asciiLower` is idempotent. -/
theorem asciiLower_idem (c : Char) : asciiLower (asciiLower c) = asciiLower c := by
  by_cases hu : 65 ≤ c.toNat ∧ c.toNat ≤ 90
  · have hlo := asciiLower_toNat_upper hu.1 hu.2
    apply asciiLower_eq_self
    omega
  · rw [asciiLower_eq_self hu]
    rw [asciiLower_eq_self hu]

/-- `asciiLowerStr` is idempotent. -/
theorem asciiLowerStr_idem (l : List Char) :
    asciiLowerStr (asciiLowerStr l) = asciiLowerStr l := by
  unfold asciiLowerStr
  rw [List.map_map]
  apply List.map_congr_left
  intro c _
  exact asciiLower_idem c

/-- Lowercasing preserves well-formedness of a token. -/
theorem wfTok_asciiLowerStr {t : List Char} (h : wfTok t) : wfTok (asciiLowerStr t) := by
  obtain ⟨hne, hch⟩ := h
  refine ⟨by simpa [asciiLowerStr] using hne, ?_⟩
  intro c hc
  rw [asciiLowerStr, List.mem_map] at hc
  obtain ⟨d, hd, rfl⟩ := hc
  exact ⟨by rw [isWsC_asciiLower]; exact (hch d hd).1, asciiLower_ne_semi (hch d hd).2⟩

/-- Splitting the serialized value section of a directive returns the
values. -/
theorem splitWs_vals : ∀ (vs : List (List Char)), (∀ v ∈ vs, wfTok v) →
    splitWs ((vs.map (fun v => ' ' :: v)).flatten) = vs := by
  intro vs
  induction vs with
  | nil => intro _; rfl
  | cons v vs2 ih =>
    intro h
    rw [List.map_cons, List.flatten_cons, List.cons_append]
    rw [splitWs_ws_cons _ _ (by decide)]
    have hv := h v (List.mem_cons_self _ _)
    rw [splitWs_token v _ hv.1 (fun c hc => (hv.2 c hc).1) ?_]
    · rw [ih (fun x hx => h x (List.mem_cons_of_mem _ hx))]
    · cases vs2 with
      | nil => exact Or.inl rfl
      | cons w ws2 =>
        refine Or.inr ⟨' ', w ++ ((ws2.map (fun v => ' ' :: v)).flatten), ?_, by decide⟩
        rw [List.map_cons, List.flatten_cons, List.cons_append]

/-- Splitting a serialized directive body returns the name and the
values. -/
theorem splitWs_entry (n : List Char) (vs : List (List Char)) (hn : wfTok n)
    (hv : ∀ v ∈ vs, wfTok v) :
    splitWs (n ++ (vs.map (fun v => ' ' :: v)).flatten) = n :: vs := by
  rw [splitWs_token n _ hn.1 (fun c hc => (hn.2 c hc).1) ?_]
  · rw [splitWs_vals vs hv]
  · cases vs with
    | nil => exact Or.inl rfl
    | cons v vs2 =>
      refine Or.inr ⟨' ', v ++ ((vs2.map (fun v => ' ' :: v)).flatten), ?_, by decide⟩
      rw [List.map_cons, List.flatten_cons, List.cons_append]

/-- `keysSorted` unfolding for a cons cell. -/
theorem keysSorted_cons {k : List Char} {v : List (List Char)} {rest : CspMap} :
    keysSorted ((k, v) :: rest) = true ↔
      (∀ e ∈ rest, strLt k e.1 = true) ∧ keysSorted rest = true := by
  simp [keysSorted, List.all_eq_true]

/-- Members of `map_insert_vacant` come from the inserted pair or the
map. -/
theorem mem_map_insert_vacant : ∀ (m : CspMap) (k : List Char)
    (v : List (List Char)) (e), e ∈ map_insert_vacant k v m → e = (k, v) ∨ e ∈ m := by
  intro m
  induction m with
  | nil =>
    intro k v e he
    simp [map_insert_vacant] at he
    exact Or.inl he
  | cons e0 rest ih =>
    intro k v e he
    rw [show map_insert_vacant k v (e0 :: rest) =
        (if strLt k e0.1 then (k, v) :: e0 :: rest
         else if k = e0.1 then e0 :: rest
         else e0 :: map_insert_vacant k v rest) from by
      cases e0; rfl] at he
    by_cases h1 : strLt k e0.1
    · rw [if_pos h1] at he
      rcases List.mem_cons.mp he with rfl | he2
      · exact Or.inl rfl
      · exact Or.inr he2
    · rw [if_neg h1] at he
      by_cases h2 : k = e0.1
      · rw [if_pos h2] at he
        exact Or.inr he
      · rw [if_neg h2] at he
        rcases List.mem_cons.mp he with rfl | he2
        · exact Or.inr (List.mem_cons_self _ _)
        · rcases ih k v e he2 with h | h
          · exact Or.inl h
          · exact Or.inr (List.mem_cons_of_mem _ h)

/-- `map_insert_vacant` preserves sortedness. -/
theorem keysSorted_insert_vacant : ∀ (m : CspMap) (k : List Char)
    (v : List (List Char)), keysSorted m = true →
    keysSorted (map_insert_vacant k v m) = true := by
  intro m
  induction m with
  | nil => intro k v _; simp [map_insert_vacant, keysSorted]
  | cons e0 rest ih =>
    intro k v hs
    obtain ⟨k0, v0⟩ := e0
    rw [keysSorted_cons] at hs
    unfold map_insert_vacant
    by_cases h1 : strLt k k0
    · rw [if_pos h1]
      rw [keysSorted_cons]
      refine ⟨?_, keysSorted_cons.mpr hs⟩
      intro e he
      rcases List.mem_cons.mp he with rfl | he2
      · exact h1
      · exact strLt_trans _ _ _ h1 (hs.1 e he2)
    · rw [if_neg h1]
      by_cases h2 : k = k0
      · rw [if_pos h2]
        exact keysSorted_cons.mpr hs
      · rw [if_neg h2]
        rw [keysSorted_cons]
        have hk0k : strLt k0 k = true := by
          rcases strLt_total k k0 with he | hl | hg
          · exact absurd he h2
          · exact absurd hl (by simpa using h1)
          · exact hg
        refine ⟨?_, ih k v hs.2⟩
        intro e he
        rcases mem_map_insert_vacant rest k v e he with rfl | he2
        · exact hk0k
        · exact hs.1 e he2

/-- Members of `map_update` come from the map or are the updated entry. -/
theorem mem_map_update : ∀ (m : CspMap) (k : List Char)
    (f : List (List Char) → List (List Char)) (e), e ∈ map_update k f m →
    e ∈ m ∨ ∃ vs, e = (k, f vs) ∧ (vs = [] ∨ (k, vs) ∈ m) := by
  intro m
  induction m with
  | nil =>
    intro k f e he
    simp [map_update] at he
    exact Or.inr ⟨[], he, Or.inl rfl⟩
  | cons e0 rest ih =>
    intro k f e he
    obtain ⟨k0, v0⟩ := e0
    unfold map_update at he
    by_cases h1 : strLt k k0
    · rw [if_pos h1] at he
      rcases List.mem_cons.mp he with rfl | he2
      · exact Or.inr ⟨[], rfl, Or.inl rfl⟩
      · exact Or.inl he2
    · rw [if_neg h1] at he
      by_cases h2 : k = k0
      · rw [if_pos h2] at he
        rcases List.mem_cons.mp he with rfl | he2
        · subst h2
          exact Or.inr ⟨v0, rfl, Or.inr (List.mem_cons_self _ _)⟩
        · exact Or.inl (List.mem_cons_of_mem _ he2)
      · rw [if_neg h2] at he
        rcases List.mem_cons.mp he with rfl | he2
        · exact Or.inl (List.mem_cons_self _ _)
        · rcases ih k f e he2 with h | ⟨vs, hvs, hor⟩
          · exact Or.inl (List.mem_cons_of_mem _ h)
          · refine Or.inr ⟨vs, hvs, ?_⟩
            rcases hor with h | h
            · exact Or.inl h
            · exact Or.inr (List.mem_cons_of_mem _ h)

/-- `map_update` preserves sortedness. -/
theorem keysSorted_map_update : ∀ (m : CspMap) (k : List Char)
    (f : List (List Char) → List (List Char)), keysSorted m = true →
    keysSorted (map_update k f m) = true := by
  intro m
  induction m with
  | nil => intro k f _; simp [map_update, keysSorted]
  | cons e0 rest ih =>
    intro k f hs
    obtain ⟨k0, v0⟩ := e0
    rw [keysSorted_cons] at hs
    unfold map_update
    by_cases h1 : strLt k k0
    · rw [if_pos h1]
      rw [keysSorted_cons]
      refine ⟨?_, keysSorted_cons.mpr hs⟩
      intro e he
      rcases List.mem_cons.mp he with rfl | he2
      · exact h1
      · exact strLt_trans _ _ _ h1 (hs.1 e he2)
    · rw [if_neg h1]
      by_cases h2 : k = k0
      · rw [if_pos h2]
        rw [keysSorted_cons]
        exact ⟨hs.1, hs.2⟩
      · rw [if_neg h2]
        rw [keysSorted_cons]
        have hk0k : strLt k0 k = true := by
          rcases strLt_total k k0 with he | hl | hg
          · exact absurd he h2
          · exact absurd hl (by simpa using h1)
          · exact hg
        refine ⟨?_, ih k f hs.2⟩
        intro e he
        rcases mem_map_update rest k f e he with h | ⟨vs, hvs, -⟩
        · exact hs.1 e h
        · rw [hvs]
          exact hk0k

/-- If the key is below every key of the map, lookup misses. -/
theorem lookup_none_of_lt_all : ∀ (m : CspMap) (k : List Char),
    (∀ e ∈ m, strLt k e.1 = true) → map_lookup k m = none := by
  intro m
  induction m with
  | nil => intro k _; rfl
  | cons e0 rest ih =>
    intro k h
    obtain ⟨k0, v0⟩ := e0
    unfold map_lookup
    rw [if_neg (strLt_ne (h (k0, v0) (List.mem_cons_self _ _)))]
    exact ih k (fun e he => h e (List.mem_cons_of_mem _ he))

/-- `map_lookup` unfolding for a cons cell. -/
theorem map_lookup_cons (k k0 : List Char) (v0 : List (List Char)) (rest : CspMap) :
    map_lookup k ((k0, v0) :: rest) = if k = k0 then some v0 else map_lookup k rest := rfl

/-- Looking up the updated key sees the update (on a sorted map). -/
theorem map_lookup_update_self : ∀ (m : CspMap) (k : List Char)
    (f : List (List Char) → List (List Char)), keysSorted m = true →
    map_lookup k (map_update k f m) = some (f ((map_lookup k m).getD [])) := by
  intro m
  induction m with
  | nil => intro k f _; simp [map_update, map_lookup]
  | cons e0 rest ih =>
    intro k f hs
    obtain ⟨k0, v0⟩ := e0
    rw [keysSorted_cons] at hs
    unfold map_update
    by_cases h1 : strLt k k0
    · rw [if_pos h1]
      have hnone : map_lookup k ((k0, v0) :: rest) = none := by
        apply lookup_none_of_lt_all
        intro e he
        rcases List.mem_cons.mp he with rfl | he2
        · exact h1
        · exact strLt_trans _ _ _ h1 (hs.1 e he2)
      rw [hnone, map_lookup_cons, if_pos rfl]
      rfl
    · rw [if_neg h1]
      by_cases h2 : k = k0
      · rw [if_pos h2]
        rw [map_lookup_cons, map_lookup_cons, if_pos h2, if_pos h2]
        rfl
      · rw [if_neg h2]
        rw [map_lookup_cons, map_lookup_cons, if_neg h2, if_neg h2]
        exact ih k f hs.2

/-- Looking up a different key is unaffected by `map_update`. -/
theorem map_lookup_update_other : ∀ (m : CspMap) (k k2 : List Char)
    (f : List (List Char) → List (List Char)), k2 ≠ k →
    map_lookup k2 (map_update k f m) = map_lookup k2 m := by
  intro m
  induction m with
  | nil =>
    intro k k2 f h
    simp [map_update, map_lookup, h]
  | cons e0 rest ih =>
    intro k k2 f h
    obtain ⟨k0, v0⟩ := e0
    unfold map_update
    by_cases h1 : strLt k k0
    · rw [if_pos h1]
      rw [map_lookup_cons, if_neg h]
    · rw [if_neg h1]
      by_cases h2 : k = k0
      · rw [if_pos h2]
        subst h2
        rw [map_lookup_cons, map_lookup_cons, if_neg h, if_neg h]
      · rw [if_neg h2]
        by_cases h3 : k2 = k0
        · rw [map_lookup_cons, map_lookup_cons, if_pos h3, if_pos h3]
        · rw [map_lookup_cons, map_lookup_cons, if_neg h3, if_neg h3]
          exact ih k k2 f h

/-- Inserting a key above every key of the map appends the entry. -/
theorem map_insert_vacant_append : ∀ (m : CspMap) (k : List Char)
    (v : List (List Char)), (∀ e ∈ m, strLt e.1 k = true) →
    map_insert_vacant k v m = m ++ [(k, v)] := by
  intro m
  induction m with
  | nil => intro k v _; rfl
  | cons e0 rest ih =>
    intro k v h
    obtain ⟨k0, v0⟩ := e0
    have h0 : strLt k0 k = true := h (k0, v0) (List.mem_cons_self _ _)
    unfold map_insert_vacant
    rw [if_neg (by rw [strLt_asymm _ _ h0]; exact Bool.false_ne_true)]
    rw [if_neg (fun he => strLt_ne h0 he.symm)]
    rw [ih k v (fun e he => h e (List.mem_cons_of_mem _ he))]
    rfl

/-- A whitespace character is not the semicolon. -/
theorem ws_ne_semi {c : Char} (h : isWsC c = true) : c ≠ sc := by
  intro he
  subst he
  exact absurd h (by decide)

/-- One spec-parse step preserves sortedness. -/
theorem add_directive_spec_sorted (m : CspMap) (part : List Char)
    (hs : keysSorted m = true) : keysSorted (add_directive_spec m part) = true := by
  unfold add_directive_spec
  cases hsplit : splitWs (trimC part) with
  | nil => exact hs
  | cons name values => exact keysSorted_insert_vacant m _ values hs

/-- One spec-parse step on a semicolon-free token preserves
well-formedness of the map. -/
theorem add_directive_spec_wf (m : CspMap) (part : List Char)
    (hm : wfMap m) (hp : sc ∉ part) : wfMap (add_directive_spec m part) := by
  unfold add_directive_spec
  cases hsplit : splitWs (trimC part) with
  | nil => exact hm
  | cons name values =>
    intro e he
    rcases mem_map_insert_vacant m _ values e he with rfl | he2
    swap
    · exact hm e he2
    have htoks := splitWs_tokens (trimC part)
    have hname := htoks name (by rw [hsplit]; exact List.mem_cons_self _ _)
    have hnamewf : wfTok name := by
      refine ⟨hname.1, fun c hc => ⟨(hname.2 c hc).1, ?_⟩⟩
      intro he2
      subst he2
      exact hp (trimC_subset part _ (hname.2 sc hc).2)
    refine ⟨wfTok_asciiLowerStr hnamewf, asciiLowerStr_idem name, ?_⟩
    intro v hv
    have hvv := htoks v (by rw [hsplit]; exact List.mem_cons_of_mem _ hv)
    refine ⟨hvv.1, fun c hc => ⟨(hvv.2 c hc).1, ?_⟩⟩
    intro he2
    subst he2
    exact hp (trimC_subset part _ (hvv.2 sc hc).2)

/-- Folding spec-parse steps over semicolon-free tokens keeps the map
sorted and well formed. -/
theorem fold_add_spec_sorted_wf : ∀ (parts : List (List Char)) (acc : CspMap),
    keysSorted acc = true → wfMap acc → (∀ p ∈ parts, sc ∉ p) →
    keysSorted (parts.foldl add_directive_spec acc) = true ∧
    wfMap (parts.foldl add_directive_spec acc) := by
  intro parts
  induction parts with
  | nil => intro acc h1 h2 _; exact ⟨h1, h2⟩
  | cons p ps ih =>
    intro acc h1 h2 hp
    rw [List.foldl_cons]
    exact ih _ (add_directive_spec_sorted acc p h1)
      (add_directive_spec_wf acc p h2 (hp p (List.mem_cons_self _ _)))
      (fun q hq => hp q (List.mem_cons_of_mem _ hq))

/-- The spec parse yields a sorted, well-formed directive map. -/
theorem parse_policy_spec_sorted_wf (h : List Char) :
    keysSorted (parse_policy_spec h) = true ∧ wfMap (parse_policy_spec h) := by
  unfold parse_policy_spec
  exact fold_add_spec_sorted_wf _ [] rfl (fun e he => absurd he (by simp))
    (fun p hp => mem_splitOnC_not_sep ';' h p (List.mem_of_mem_filter hp))

/-- When the code parse succeeds, it agrees with the spec parse. -/
theorem fold_add_directive_agree : ∀ (parts : List (List Char)) (acc m : CspMap),
    List.foldlM add_directive acc parts = some m →
    parts.foldl add_directive_spec acc = m := by
  intro parts
  induction parts with
  | nil =>
    intro acc m h
    cases h
    rfl
  | cons p ps ih =>
    intro acc m h
    rw [List.foldlM_cons] at h
    cases hstep : add_directive acc p with
    | none => rw [hstep] at h; cases h
    | some acc2 =>
      rw [hstep] at h
      rw [List.foldl_cons]
      have hspec : add_directive_spec acc p = acc2 := by
        unfold add_directive at hstep
        unfold add_directive_spec
        cases hsplit : splitWs (trimC p) with
        | nil => rw [hsplit] at hstep; cases hstep
        | cons name values =>
          rw [hsplit] at hstep
          cases hstep
          rfl
      rw [hspec]
      exact ih acc2 m h

/-- When `parse_policy` succeeds, `parse_policy_spec` computes the same
map. -/
theorem parse_policy_agree (h : List Char) (m : CspMap)
    (hp : parse_policy h = some m) : parse_policy_spec h = m := by
  unfold parse_policy at hp
  unfold parse_policy_spec
  exact fold_add_directive_agree _ [] m hp

/-- A serialized directive body contains no semicolon. -/
theorem body_no_semi (n : List Char) (vs : List (List Char)) (hn : wfTok n)
    (hv : ∀ v ∈ vs, wfTok v) :
    sc ∉ n ++ (vs.map (fun v => ' ' :: v)).flatten := by
  intro hmem
  rcases List.mem_append.mp hmem with h | h
  · exact (hn.2 sc h).2 rfl
  · rw [List.mem_flatten] at h
    obtain ⟨l, hl, hcl⟩ := h
    rw [List.mem_map] at hl
    obtain ⟨v, hv2, rfl⟩ := hl
    rcases List.mem_cons.mp hcl with he | hin
    · exact absurd he.symm (by decide)
    · exact ((hv v hv2).2 sc hin).2 rfl

/-- Serialization of a cons cell. -/
theorem serialize_policy_cons (n : List Char) (vs : List (List Char)) (rest : CspMap) :
    serialize_policy ((n, vs) :: rest) =
      (n ++ (vs.map (fun v => ' ' :: v)).flatten) ++ ';' :: ' ' :: serialize_policy rest := by
  unfold serialize_policy serialize_entry
  rw [List.map_cons, List.flatten_cons]
  simp [List.append_assoc]

/-- Parsing back the serialization of a sorted well-formed map (with an
all-whitespace prefix, and into an accumulator whose keys all lie below
the keys of the map) appends exactly the map entries. -/
theorem spec_fold_serialize : ∀ (m : CspMap) (w : List Char) (acc : CspMap),
    (∀ c ∈ w, isWsC c = true) →
    wfMap m →
    keysSorted m = true →
    (∀ e ∈ m, ∀ e0 ∈ acc, strLt e0.1 e.1 = true) →
    ((splitOnC ';' (w ++ serialize_policy m)).filter (fun p => p != [])).foldl
      add_directive_spec acc = acc ++ m := by
  intro m
  induction m with
  | nil =>
    intro w acc hw _ _ _
    rw [show serialize_policy [] = [] from rfl, List.append_nil]
    have hns : sc ∉ w := fun hmem => ws_ne_semi (hw sc hmem) rfl
    have hone : splitOnC ';' w = [w] := by
      have happ := splitOnC_append ';' w [] hns
      rw [List.append_nil] at happ
      rw [happ]
      simp [splitOnC, List.modifyHead]
    rw [hone]
    by_cases hwe : w = []
    · subst hwe
      simp
    · rw [List.filter_cons_of_pos (by simpa using hwe)]
      rw [show List.filter (fun p => p != []) [] = [] from rfl]
      rw [List.foldl_cons, List.foldl_nil]
      have hsplitw : splitWs w = [] := by
        rw [show splitWs w = splitWsAux w [] from rfl, splitWsAux_all_ws w [] hw]
        rfl
      unfold add_directive_spec
      rw [splitWs_trimC, hsplitw]
      simp
  | cons e rest ih =>
    intro w acc hw hwf hsorted hgt
    obtain ⟨n, vs⟩ := e
    have hwfE := hwf (n, vs) (List.mem_cons_self _ _)
    obtain ⟨hn, hlow, hv⟩ := hwfE
    rw [serialize_policy_cons, ← List.append_assoc]
    have hnosemi : sc ∉ w ++ (n ++ (vs.map (fun v => ' ' :: v)).flatten) := by
      intro hmem
      rcases List.mem_append.mp hmem with h | h
      · exact ws_ne_semi (hw sc h) rfl
      · exact body_no_semi n vs hn hv h
    have hsplit : splitOnC ';' ((w ++ (n ++ (vs.map (fun v => ' ' :: v)).flatten))
          ++ ';' :: ' ' :: serialize_policy rest) =
        (w ++ (n ++ (vs.map (fun v => ' ' :: v)).flatten))
          :: splitOnC ';' (' ' :: serialize_policy rest) := by
      rw [splitOnC_append ';' _ _ hnosemi, splitOnC_sep_cons]
      simp [List.modifyHead]
    rw [List.append_assoc, ← List.append_assoc, hsplit]
    have hbody_ne : (w ++ (n ++ (vs.map (fun v => ' ' :: v)).flatten)) ≠ [] := by
      intro he
      rcases List.append_eq_nil.mp he with ⟨-, hbe⟩
      rcases List.append_eq_nil.mp hbe with ⟨hne, -⟩
      exact hn.1 hne
    rw [List.filter_cons_of_pos (by simpa using hbody_ne)]
    rw [List.foldl_cons]
    have hstep : add_directive_spec acc (w ++ (n ++ (vs.map (fun v => ' ' :: v)).flatten))
        = acc ++ [(n, vs)] := by
      unfold add_directive_spec
      rw [splitWs_trimC, splitWs_ws_append w _ hw,
        splitWs_entry n vs hn (fun v hv2 => hv v hv2)]
      show map_insert_vacant (asciiLowerStr n) vs acc = acc ++ [(n, vs)]
      rw [hlow]
      exact map_insert_vacant_append acc n vs
        (fun e0 he0 => hgt (n, vs) (List.mem_cons_self _ _) e0 he0)
    rw [hstep]
    have hsorted2 := keysSorted_cons.mp hsorted
    have hih := ih [' '] (acc ++ [(n, vs)])
      (by intro c hc; rcases List.mem_cons.mp hc with rfl | hc2
          · decide
          · simp at hc2)
      (fun e he => hwf e (List.mem_cons_of_mem _ he))
      hsorted2.2
      (by intro e he e0 he0
          rcases List.mem_append.mp he0 with h0 | h0
          · exact hgt e (List.mem_cons_of_mem _ he) e0 h0
          · have : e0 = (n, vs) := by simpa using h0
            rw [this]
            exact hsorted2.1 e he)
    rw [show (' ' :: serialize_policy rest) = [' '] ++ serialize_policy rest from rfl]
    rw [hih]
    simp

/-- Round trip: parsing the serialization of a sorted well-formed map
recovers the map. -/
theorem parse_policy_spec_serialize (m : CspMap) (hwf : wfMap m)
    (hs : keysSorted m = true) :
    parse_policy_spec (serialize_policy m) = m := by
  unfold parse_policy_spec
  have h := spec_fold_serialize m [] [] (by simp) hwf hs (by simp)
  simpa using h

/-- The modified source list always contains `(sq)self(sq)`. -/
theorem SELF_mem_modify (vs : List (List Char)) : SELF ∈ modify_sources vs := by
  simp [modify_sources]

/-- The modified source list passes the `allows` check. -/
theorem allows_modify (vs : List (List Char)) : allows (modify_sources vs) = true := by
  unfold allows
  have h : (modify_sources vs).contains SELF = true :=
    List.elem_eq_true_of_mem (SELF_mem_modify vs)
  rw [h]
  rfl

/-- Updating a directive with `modify_sources` keeps the map well
formed, provided the key is a well-formed lowercase token. -/
theorem wfMap_update_modify (m : CspMap) (k : List Char) (hm : wfMap m)
    (hk : wfTok k) (hkl : asciiLowerStr k = k) :
    wfMap (map_update k modify_sources m) := by
  intro e he
  rcases mem_map_update m k modify_sources e he with h | ⟨vs, rfl, hor⟩
  · exact hm e h
  · refine ⟨hk, hkl, ?_⟩
    intro v hv
    unfold modify_sources at hv
    rcases List.mem_append.mp hv with h2 | h2
    · have hvin : v ∈ vs := List.mem_of_mem_filter h2
      rcases hor with rfl | hmem
      · simp at hvin
      · exact (hm (k, vs) hmem).2.2 v hvin
    · have hvs : v = SELF := by simpa using h2
      rw [hvs]
      refine ⟨by decide, by decide⟩

/-- The `script-src` name is a well-formed lowercase token. -/
theorem wfTok_script_src : wfTok script_src :=
  ⟨by decide, by decide⟩

/-- The `connect-src` name is a well-formed lowercase token. -/
theorem wfTok_connect_src : wfTok connect_src :=
  ⟨by decide, by decide⟩

/-- `rewrite_csp` unfolded at a successful parse. -/
theorem rewrite_csp_eq (h : List Char) (ds : CspMap)
    (hp : parse_policy h = some ds) :
    rewrite_csp h =
      (if ((lookup_or_default ds script_src).elim true allows
            && (lookup_or_default ds connect_src).elim true allows) then some h
       else some (serialize_policy
         (if (lookup_or_default ds connect_src).elim true allows then
            (if (lookup_or_default ds script_src).elim true allows then ds
             else map_update script_src modify_sources ds)
          else map_update connect_src modify_sources
            (if (lookup_or_default ds script_src).elim true allows then ds
             else map_update script_src modify_sources ds)))) := by
  unfold rewrite_csp
  rw [hp]

/-- C6 amended: whenever the rewriter does not panic (it panics exactly
on a whitespace-only `;`-token), a header whose parsed directive set
already permits `(sq)self(sq)` or `*` for both scripts and connects
(with the `default-src` fallback, absent meaning permitted) is returned
byte-for-byte unchanged; any other header is re-serialized so that the
output parses (per CSP3) to a sorted directive map that permits both,
and each directive that was not permitted is exactly its old source
list with `(sq)none(sq)` removed and `(sq)self(sq)` appended. -/
theorem rewrite_csp_spec :
    ∀ (h out : List Char), rewrite_csp h = some out →
      (csp_permits_both h = true → out = h) ∧
      (csp_permits_both h = false →
        csp_permits_both out = true ∧
        out = serialize_policy (parse_policy_spec out) ∧
        keysSorted (parse_policy_spec out) = true ∧
        ((lookup_or_default (parse_policy_spec h) script_src).elim true allows = false →
          map_lookup script_src (parse_policy_spec out) =
            some (modify_sources ((map_lookup script_src (parse_policy_spec h)).getD []))) ∧
        ((lookup_or_default (parse_policy_spec h) connect_src).elim true allows = false →
          map_lookup connect_src (parse_policy_spec out) =
            some (modify_sources ((map_lookup connect_src (parse_policy_spec h)).getD [])))) := by
  intro h out hro
  cases hp : parse_policy h with
  | none => rw [rewrite_csp, hp] at hro; cases hro
  | some ds =>
    rw [rewrite_csp_eq h ds hp] at hro
    have hagree : parse_policy_spec h = ds := parse_policy_agree h ds hp
    have hsw := parse_policy_spec_sorted_wf h
    rw [hagree] at hsw
    obtain ⟨hsorted, hwf⟩ := hsw
    have hperm : csp_permits_both h =
        ((lookup_or_default ds script_src).elim true allows
          && (lookup_or_default ds connect_src).elim true allows) := by
      unfold csp_permits_both
      rw [hagree]
    by_cases hboth : ((lookup_or_default ds script_src).elim true allows
        && (lookup_or_default ds connect_src).elim true allows) = true
    · rw [if_pos hboth] at hro
      cases hro
      refine ⟨fun _ => rfl, fun hcontra => ?_⟩
      rw [hperm, hboth] at hcontra
      cases hcontra
    · rw [if_neg hboth] at hro
      cases hro
      refine ⟨fun hcontra => ?_, fun _ => ?_⟩
      · rw [hperm] at hcontra
        exact absurd hcontra hboth
      set sok := (lookup_or_default ds script_src).elim true allows with hsok
      set cok := (lookup_or_default ds connect_src).elim true allows with hcok
      set d1 := if sok = true then ds else map_update script_src modify_sources ds with hd1
      set d2 := if cok = true then d1 else map_update connect_src modify_sources d1 with hd2
      have hd1s : keysSorted d1 = true := by
        rw [hd1]
        split
        · exact hsorted
        · exact keysSorted_map_update ds _ _ hsorted
      have hd1w : wfMap d1 := by
        rw [hd1]
        split
        · exact hwf
        · exact wfMap_update_modify ds script_src hwf wfTok_script_src (by decide)
      have hd2s : keysSorted d2 = true := by
        rw [hd2]
        split
        · exact hd1s
        · exact keysSorted_map_update d1 _ _ hd1s
      have hd2w : wfMap d2 := by
        rw [hd2]
        split
        · exact hd1w
        · exact wfMap_update_modify d1 connect_src hd1w wfTok_connect_src (by decide)
      have hround : parse_policy_spec (serialize_policy d2) = d2 :=
        parse_policy_spec_serialize d2 hd2w hd2s
      have hlu_script_mod : sok = false →
          map_lookup script_src d2 =
            some (modify_sources ((map_lookup script_src ds).getD [])) := by
        intro hs1
        have h1 : map_lookup script_src d1 =
            some (modify_sources ((map_lookup script_src ds).getD [])) := by
          rw [hd1, if_neg (by rw [hs1]; exact Bool.false_ne_true)]
          exact map_lookup_update_self ds script_src _ hsorted
        rw [hd2]
        split
        · exact h1
        · rw [map_lookup_update_other d1 connect_src script_src _ (by decide)]
          exact h1
      have hlu_script_keep : sok = true →
          lookup_or_default d2 script_src = lookup_or_default ds script_src := by
        intro hs1
        have h1 : d1 = ds := by rw [hd1, if_pos hs1]
        rw [hd2]
        split
        · rw [h1]
        · unfold lookup_or_default
          rw [map_lookup_update_other _ _ _ _ (by decide),
            map_lookup_update_other _ _ _ _ (by decide), h1]
      have hlu_connect_mod : cok = false →
          map_lookup connect_src d2 =
            some (modify_sources ((map_lookup connect_src ds).getD [])) := by
        intro hc1
        have h1 : map_lookup connect_src d1 = map_lookup connect_src ds := by
          rw [hd1]
          split
          · rfl
          · exact map_lookup_update_other ds script_src connect_src _ (by decide)
        rw [hd2, if_neg (by rw [hc1]; exact Bool.false_ne_true)]
        rw [map_lookup_update_self d1 connect_src _ hd1s, h1]
      have hlu_connect_keep : cok = true →
          lookup_or_default d2 connect_src = lookup_or_default ds connect_src := by
        intro hc1
        rw [hd2, if_pos hc1, hd1]
        split
        · rfl
        · unfold lookup_or_default
          rw [map_lookup_update_other _ _ _ _ (by decide),
            map_lookup_update_other _ _ _ _ (by decide)]
      refine ⟨?_, by rw [hround], by rw [hround]; exact hd2s, ?_, ?_⟩
      · unfold csp_permits_both
        rw [hround]
        rw [Bool.and_eq_true]
        constructor
        · cases hs1 : sok with
          | true =>
            rw [hlu_script_keep hs1]
            rw [← hsok]
            exact hs1
          | false =>
            have h1 := hlu_script_mod hs1
            unfold lookup_or_default
            rw [h1]
            show allows (modify_sources _) = true
            exact allows_modify _
        · cases hc1 : cok with
          | true =>
            rw [hlu_connect_keep hc1]
            rw [← hcok]
            exact hc1
          | false =>
            have h1 := hlu_connect_mod hc1
            unfold lookup_or_default
            rw [h1]
            show allows (modify_sources _) = true
            exact allows_modify _
      · intro hcond
        rw [hagree] at hcond
        rw [← hsok] at hcond
        rw [hround, hagree]
        exact hlu_script_mod hcond
      · intro hcond
        rw [hagree] at hcond
        rw [← hcok] at hcond
        rw [hround, hagree]
        exact hlu_connect_mod hcond

/-- C6 witness: on `default-src (sq)none(sq)` (which permits neither),
the rewriter produces the sorted serialization whose parse permits
both, with `script-src` getting exactly `(sq)self(sq)`. -/
theorem rewrite_csp_spec_witness :
    csp_permits_both cspOutW = true ∧
    map_lookup script_src (parse_policy_spec cspOutW) =
      some (modify_sources ((map_lookup script_src (parse_policy_spec cspInW)).getD [])) :=
  ⟨((rewrite_csp_spec cspInW cspOutW (by decide)).2 (by decide)).1,
   ((rewrite_csp_spec cspInW cspOutW (by decide)).2 (by decide)).2.2.2.1 (by decide)⟩

end Penguin
